import Mathlib

/-!
# King's Walk: a shallow embedding of `src/main.rs`

The repository is a hill-climbing solver for a Hidato-style puzzle: an
`n × n` board holding a permutation of `1..n*n`, where consecutive values
must sit on king's-move adjacent cells.  This file embeds the Rust source
(`State::new`, `State::score`, `State::max_score`, `State::random_start`,
`State::step`, `State::hillclimb`) as executable Lean definitions and
proves the specification claims about them.

Modelling conventions:
* board values are `u8` in the source; we model them as `Nat` and insert
  an explicit `% 256` exactly where the source performs a truncating cast
  (`next_unseen as u8`) or wrapping arithmetic (`goal + 1`, `goal - 1` in
  the score helper, which wrap in release builds);
* `Vec` indexing that can panic in Rust is modelled with `Option`
  (construction returns `none` on a would-be panic); `Vec::swap` is
  modelled by the total `listSwap`, whose indices are proved in bounds for
  validly constructed states;
* the thread-local RNG is modelled by a draw stream `f : Nat → Nat`; the
  source computes `rng.gen::<usize>() % x`, which we render as `f i % x`
  for the `i`-th draw.
-/

namespace KingsWalk

/-- The one error kind of the program (`enum KingsWalkError`). -/
inductive KingsWalkError where
  | BoardLength
  deriving DecidableEq, Repr

/-- `struct State { board: Vec<u8>, n: usize, assignments: Vec<usize> }`. -/
structure State where
  board : List Nat
  n : Nat
  assignments : List Nat
  deriving DecidableEq, Repr

/-- `Vec::swap` on a list: swap the entries at positions `i` and `j`.
In Rust an out-of-bounds `swap` panics; here it is a no-op, and all call
sites are proved in bounds for validly constructed states. -/
def listSwap (l : List Nat) (i j : Nat) : List Nat :=
  match l[i]?, l[j]? with
  | some a, some b => (l.set i b).set j a
  | _, _ => l

/-- The first scan of `State::new`: walk the input board, record the index
of every zero cell in `assignments` (in encounter order) and mark each
value as seen (`seen[start_value as usize] = true`).  Returns `none` when
the `seen` write would be out of bounds (a Rust panic). -/
def scanBoard (seen : List Bool) (asg : List Nat) (idx : Nat) :
    List Nat → Option (List Bool × List Nat)
  | [] => some (seen, asg)
  | v :: rest =>
    if v < seen.length then
      scanBoard (seen.set v true) (if v = 0 then asg ++ [idx] else asg) (idx + 1) rest
    else
      none

/-- The `while seen[next_unseen] { next_unseen += 1 }` loop of
`State::new`: advance the cursor to the first unseen value.  Returns
`none` when the read runs off the end of `seen` (a Rust panic). -/
def nextUnseen (seen : List Bool) (k : Nat) : Option Nat :=
  match h : seen[k]? with
  | none => none
  | some true => nextUnseen seen (k + 1)
  | some false => some k
termination_by seen.length - k
decreasing_by
  have : k < seen.length := by
    by_contra hk
    simp [List.getElem?_eq_none (Nat.le_of_not_lt hk)] at h
  omega

/-- The second loop of `State::new`: overwrite each recorded zero position
with the next unseen value, cast to `u8` (`next_unseen as u8`, i.e.
`% 256`). -/
def fill : List Nat → List Bool → List Nat → Nat → Option (List Nat)
  | board, _, [], _ => some board
  | board, seen, idx :: rest, cursor =>
    match nextUnseen seen cursor with
    | none => none
    | some k => fill (board.set idx (k % 256)) seen rest (k + 1)

/-- `State::new`.  `some (Except.error _)` is the `Err` return,
`some (Except.ok _)` the `Ok` return, and `none` a Rust panic
(out-of-bounds indexing during construction). -/
def State.new (board : List Nat) (n : Nat) :
    Option (Except KingsWalkError State) :=
  if board.length ≠ n * n then
    some (Except.error KingsWalkError.BoardLength)
  else
    match scanBoard (List.replicate (n * n + 1) false) [] 0 board with
    | none => none
    | some (seen, asg) =>
      match fill board seen asg 1 with
      | none => none
      | some board' => some (Except.ok { board := board', n := n, assignments := asg })

/-- The score helper: count the neighbours holding `goal + 1` or
`goal - 1` (wrapping `u8` arithmetic). -/
def helper (goal : Nat) (neighbors : List Nat) : Nat :=
  let goal1 := (goal + 1) % 256
  let goal2 := (goal + 255) % 256
  (neighbors.map (fun x => if x = goal1 ∨ x = goal2 then 1 else 0)).sum

/-- The forward neighbour candidates of cell `idx` built by `State::score`:
below always; below-left unless in the leftmost column; right and
below-right unless in the rightmost column. -/
def neighborIdxs (n idx : Nat) : List Nat :=
  ([idx + n] ++ (if idx % n ≠ 0 then [idx + n - 1] else []))
    ++ (if idx % n ≠ n - 1 then [idx + 1, idx + n + 1] else [])

/-- The body of `State::score` on a raw board: for every cell, keep the
neighbour candidates that are on the board (`self.board.get(neighbor)`)
and add the helper count. -/
def scoreBoard (b : List Nat) (n : Nat) : Nat :=
  (b.enum.map (fun p =>
    helper p.2 ((neighborIdxs n p.1).filterMap (fun nb => b[nb]?)))).sum

/-- `State::score`. -/
def State.score (s : State) : Nat :=
  scoreBoard s.board s.n

/-- `State::max_score`: the number of edges of the value path. -/
def State.max_score (s : State) : Nat :=
  s.board.length - 1

/-- The swap loop of `State::random_start`: for the `idx1`-th draw `j`,
swap `board[assignments[idx1]]` with `board[assignments[j + idx1]]`. -/
def applySwapsAux : List Nat → List Nat → List Nat → Nat → List Nat
  | board, _, [], _ => board
  | board, asg, j :: rest, idx1 =>
    applySwapsAux (listSwap board (asg.getD idx1 0) (asg.getD (j + idx1) 0)) asg rest (idx1 + 1)

/-- The draw list of `State::random_start`:
`(1..len).rev().map(|x| rng.gen::<usize>() % x)`, the `i`-th draw being
`f i`. -/
def swapsOf (len : Nat) (f : Nat → Nat) : List Nat :=
  (List.range (len - 1)).map (fun i => f i % (len - 1 - i))

/-- `State::random_start` with draw stream `f`; returns the mutated state
and the new score. -/
def State.random_start (s : State) (f : Nat → Nat) : State × Nat :=
  let board' := applySwapsAux s.board s.assignments (swapsOf s.assignments.length f) 0
  ({ s with board := board' }, scoreBoard board' s.n)

/-- The ordered pair scan of `State::step`: every `assignments[prev]`
paired with every later entry of `assignments`, in source order. -/
def pairList : List Nat → List (Nat × Nat)
  | [] => []
  | i :: rest => rest.map (fun j => (i, j)) ++ pairList rest

/-- The score obtained by trying the swap `p` on state `s` (the source
swaps, scores and swaps back; the board is restored after every trial). -/
def trialScore (s : State) (p : Nat × Nat) : Nat :=
  scoreBoard (listSwap s.board p.1 p.2) s.n

/-- The accumulator loop of `State::step`: track the best score seen and
the pair that last strictly improved it. -/
def bestFoldAux (f : Nat × Nat → Nat) :
    List (Nat × Nat) → Nat × Option (Nat × Nat) → Nat × Option (Nat × Nat)
  | [], acc => acc
  | p :: rest, acc =>
    bestFoldAux f rest (if acc.1 < f p then (f p, some p) else acc)

/-- `State::step`: scan all pairs of mutable positions, then permanently
apply the recorded best swap (if any) and return the best score. -/
def State.step (s : State) (start_score : Nat) : State × Nat :=
  let r := bestFoldAux (trialScore s) (pairList s.assignments) (start_score, none)
  match r.2 with
  | none => (s, r.1)
  | some (i, j) => ({ s with board := listSwap s.board i j }, r.1)

/-- The inner loop of `State::hillclimb`
(`while round > high_score { ... }`), with explicit fuel. -/
def stepLoop : Nat → State → Nat → Option (State × Nat)
  | 0, _, _ => none
  | fuel + 1, s, high =>
    if high < (State.step s high).2 then
      stepLoop fuel (State.step s high).1 (State.step s high).2
    else
      some ((State.step s high).1, high)

/-- The outer loop of `State::hillclimb`, with explicit fuel; `g` is the
RNG stream and `c` the index of the next unconsumed draw. -/
def hillclimbGo : Nat → State → Nat → (Nat → Nat) → Nat → Option State
  | 0, _, _, _, _ => none
  | fuel + 1, s, high, g, c =>
    if high = s.max_score then some s
    else
      match stepLoop (fuel + 1) (s.random_start (fun i => g (c + i))).1
          (s.random_start (fun i => g (c + i))).2 with
      | none => none
      | some (s2, h2) => hillclimbGo fuel s2 h2 g (c + (s.assignments.length - 1))

/-- `State::hillclimb` with fuel: `none` means the fuel ran out before the
loop exited. -/
def State.hillclimb (fuel : Nat) (s : State) (g : Nat → Nat) : Option State :=
  hillclimbGo fuel s s.score g 0

/-! ### Derived descriptions of construction (used to state the claims) -/

/-- The cumulative effect on `seen` of the marking pass of `State::new`. -/
def markSeen (seen : List Bool) (input : List Nat) : List Bool :=
  input.foldl (fun s v => s.set v true) seen

/-- Indices of the zero cells of `l`, in scan order, shifted by `idx`. -/
def zeroIdxsAux (idx : Nat) : List Nat → List Nat
  | [] => []
  | v :: rest => (if v = 0 then [idx] else []) ++ zeroIdxsAux (idx + 1) rest

/-- Indices of the zero cells of `l`, in left-to-right scan order. -/
def zeroIdxs (l : List Nat) : List Nat := zeroIdxsAux 0 l

/-- The values of `1..n*n` missing from the input, in increasing order. -/
def missingVals (input : List Nat) (n : Nat) : List Nat :=
  (List.range' 1 (n * n)).filter (fun v => decide (v ∉ input))

/-- The values not in the input from cursor `c` up to `n*n`, in increasing
order: the values the `next_unseen` cursor will deliver. -/
def unseenFrom (input : List Nat) (n : Nat) (c : Nat) : List Nat :=
  if h : c ≤ n * n then
    if c ∈ input then unseenFrom input n (c + 1)
    else c :: unseenFrom input n (c + 1)
  else []
termination_by n * n + 1 - c

/-- Overwrite the entries of `b` at positions `ps` with the values `vs`,
pairing them up in order. -/
def setAll : List Nat → List Nat → List Nat → List Nat
  | b, [], _ => b
  | b, _ :: _, [] => b
  | b, p :: ps, v :: vs => setAll (b.set p v) ps vs

/-- Specification-side description of the deterministic initial fill
(§4.1 of the spec): replace the zero cells of the input, in scan order,
by the values of `ms`, in order. -/
def fillZeros : List Nat → List Nat → List Nat
  | [], _ => []
  | 0 :: rest, [] => 0 :: fillZeros rest []
  | 0 :: rest, m :: ms => m :: fillZeros rest ms
  | (v + 1) :: rest, ms => (v + 1) :: fillZeros rest ms

/-- A valid puzzle input in the sense of the spec: correct length, clue
values in `1..n*n`, and distinct clues. -/
def ValidInput (input : List Nat) (n : Nat) : Prop :=
  input.length = n * n ∧ (∀ v ∈ input, v ≤ n * n) ∧
    (input.filter (fun v => decide (v ≠ 0))).Nodup

/-- The central invariant of the spec, relative to the original input:
the board is a permutation of `1..n*n`, the mutable positions are exactly
the zero cells of the input, clue cells hold their original value, and
the mutable cells hold exactly the values missing from the input. -/
def Inv (input : List Nat) (n : Nat) (s : State) : Prop :=
  input.length = n * n ∧
  s.n = n ∧
  s.assignments = zeroIdxs input ∧
  s.board.length = n * n ∧
  s.board.Perm (List.range' 1 (n * n)) ∧
  (∀ i, i < input.length → input.getD i 0 ≠ 0 → s.board.getD i 0 = input.getD i 0) ∧
  (s.assignments.map (fun i => s.board.getD i 0)).Perm (missingVals input n)

/-- King's-move adjacency of two cell indices on a width-`n` grid: the
cells differ and their rows and columns each differ by at most one
(glossary of the spec). -/
def kingAdj (n p q : Nat) : Prop :=
  p ≠ q ∧ p / n ≤ q / n + 1 ∧ q / n ≤ p / n + 1 ∧
    p % n ≤ q % n + 1 ∧ q % n ≤ p % n + 1

instance (n p q : Nat) : Decidable (kingAdj n p q) := by
  unfold kingAdj
  infer_instance

/-- The number of consecutive-value pairs `(k, k + 1)`, `k ∈ 1..n*n-1`,
whose cells are king's-move adjacent on the board. -/
def adjPairCount (b : List Nat) (n : Nat) : Nat :=
  (List.range' 1 (n * n - 1)).countP
    (fun k => decide (kingAdj n (b.indexOf k) (b.indexOf (k + 1))))

/-- The incidences counted by `State::score`: ordered pairs of a cell and
one of its forward neighbours holding a consecutive value. -/
def inPairs (b : List Nat) (n : Nat) : Finset (Nat × Nat) :=
  (Finset.range (n * n) ×ˢ Finset.range (n * n)).filter
    (fun p => p.2 ∈ neighborIdxs n p.1 ∧
      (b.getD p.2 0 = b.getD p.1 0 + 1 ∨ b.getD p.1 0 = b.getD p.2 0 + 1))

/-- The values `k` whose cell is king's-move adjacent to the cell of
`k + 1`. -/
def adjPairSet (b : List Nat) (n : Nat) : Finset Nat :=
  (Finset.Icc 1 (n * n - 1)).filter
    (fun k => kingAdj n (b.indexOf k) (b.indexOf (k + 1)))

/-- The constructed state of the running `n = 3` example:
`State::new(vec![0,0,1,0,2,0,9,0,0], 3)`. -/
def kw3 : State :=
  { board := [3, 4, 1, 5, 2, 6, 9, 7, 8], n := 3, assignments := [0, 1, 3, 5, 7, 8] }

/-- The local optimum (score 7) that the adversarial draw stream steers
the first restart of `kw3` into. -/
def kw3stuck : State :=
  { board := [3, 4, 1, 5, 2, 7, 9, 6, 8], n := 3, assignments := [0, 1, 3, 5, 7, 8] }

/-- An adversarial draw stream for `hillclimb` on `kw3`: the first restart
consumes draws `(0,0,0,1,0)` and lands on `kw3stuck`; every later draw is
zero, so every later restart is the identity. -/
def advDraws : Nat → Nat := fun i => if i = 3 then 1 else 0

/-! ### The construction scan -/

theorem markSeen_cons (seen : List Bool) (v : Nat) (rest : List Nat) :
    markSeen seen (v :: rest) = markSeen (seen.set v true) rest := rfl

theorem markSeen_length (input : List Nat) :
    ∀ seen : List Bool, (markSeen seen input).length = seen.length := by
  induction input with
  | nil => intro seen; rfl
  | cons v rest ih => intro seen; rw [markSeen_cons, ih, List.length_set]

theorem markSeen_getElem? (input : List Nat) :
    ∀ (seen : List Bool) (v : Nat),
      (markSeen seen input)[v]? =
        if v ∈ input ∧ v < seen.length then some true else seen[v]? := by
  induction input with
  | nil => intro seen v; simp [markSeen]
  | cons w rest ih =>
    intro seen v
    rw [markSeen_cons, ih, List.length_set]
    by_cases h1 : v < seen.length
    · by_cases h2 : v ∈ rest
      · simp [h1, h2]
      · by_cases h3 : v = w
        · subst h3
          rw [if_neg (by tauto), if_pos (by simp [h1]), List.getElem?_set_self h1]
        · rw [if_neg (by tauto), if_neg (by simp [h3, h2]),
            List.getElem?_set_ne (fun h => h3 h.symm)]
    · rw [if_neg (by tauto), if_neg (by tauto), List.getElem?_eq_none, List.getElem?_eq_none]
      · omega
      · rw [List.length_set]; omega

theorem scanBoard_eq_some (input : List Nat) :
    ∀ (seen : List Bool) (asg : List Nat) (idx : Nat),
      (∀ v ∈ input, v < seen.length) →
      scanBoard seen asg idx input =
        some (markSeen seen input, asg ++ zeroIdxsAux idx input) := by
  induction input with
  | nil => intro seen asg idx _; simp [scanBoard, markSeen, zeroIdxsAux]
  | cons v rest ih =>
    intro seen asg idx h
    have hv : v < seen.length := h v (List.mem_cons_self v rest)
    have hrest : ∀ w ∈ rest, w < (seen.set v true).length := by
      intro w hw
      rw [List.length_set]
      exact h w (List.mem_cons_of_mem _ hw)
    simp only [scanBoard, if_pos hv]
    rw [ih _ _ _ hrest, markSeen_cons, zeroIdxsAux]
    by_cases hv0 : v = 0 <;> simp [hv0]

theorem scanBoard_isSome_vals (input : List Nat) :
    ∀ (seen : List Bool) (asg : List Nat) (idx : Nat) x,
      scanBoard seen asg idx input = some x → ∀ v ∈ input, v < seen.length := by
  induction input with
  | nil => intro seen asg idx x _ v hv; cases hv
  | cons w rest ih =>
    intro seen asg idx x hx v hv
    by_cases hw : w < seen.length
    · simp only [scanBoard, if_pos hw] at hx
      rcases List.mem_cons.mp hv with h | h
      · omega
      · have := ih _ _ _ _ hx v h
        rwa [List.length_set] at this
    · simp [scanBoard, if_neg hw] at hx

/-! ### Zero positions -/

theorem zeroIdxsAux_add (l : List Nat) :
    ∀ k j, zeroIdxsAux (k + j) l = (zeroIdxsAux k l).map (· + j) := by
  induction l with
  | nil => intro k j; rfl
  | cons v rest ih =>
    intro k j
    have e : k + j + 1 = k + 1 + j := by omega
    simp only [zeroIdxsAux, e, ih (k + 1) j, List.map_append]
    by_cases hv0 : v = 0 <;> simp [hv0]

theorem zeroIdxs_cons (v : Nat) (rest : List Nat) :
    zeroIdxs (v :: rest) =
      (if v = 0 then [0] else []) ++ (zeroIdxs rest).map (· + 1) := by
  show zeroIdxsAux 0 (v :: rest) = _
  simp only [zeroIdxsAux]
  rw [show (1 : Nat) = 0 + 1 from rfl, zeroIdxsAux_add]
  rfl

theorem mem_zeroIdxs (l : List Nat) :
    ∀ q, q ∈ zeroIdxs l ↔ (q < l.length ∧ l.getD q 0 = 0) := by
  induction l with
  | nil => intro q; simp [zeroIdxs, zeroIdxsAux]
  | cons v rest ih =>
    intro q
    rw [zeroIdxs_cons]
    cases q with
    | zero =>
      by_cases hv0 : v = 0 <;> simp [hv0, List.getD]
    | succ q =>
      have : (q + 1 ∈ (if v = 0 then [0] else []) ++ (zeroIdxs rest).map (· + 1)) ↔
          q ∈ zeroIdxs rest := by
        by_cases hv0 : v = 0 <;> simp [hv0]
      rw [this, ih q]
      simp [List.getD]

theorem zeroIdxsAux_lower (l : List Nat) :
    ∀ k q, q ∈ zeroIdxsAux k l → k ≤ q := by
  induction l with
  | nil => intro k q h; cases h
  | cons v rest ih =>
    intro k q h
    rcases List.mem_append.mp h with h | h
    · by_cases hv0 : v = 0
      all_goals simp [hv0] at h
      omega
    · have := ih (k + 1) q h
      omega

theorem zeroIdxsAux_sorted (l : List Nat) :
    ∀ k, (zeroIdxsAux k l).Sorted (· < ·) := by
  induction l with
  | nil => intro k; simp [zeroIdxsAux]
  | cons v rest ih =>
    intro k
    by_cases hv0 : v = 0 <;> simp only [zeroIdxsAux, hv0, if_true, if_false]
    · rw [List.singleton_append, List.sorted_cons]
      exact ⟨fun b hb => by have := zeroIdxsAux_lower rest (k + 1) b hb; omega, ih (k + 1)⟩
    · simpa using ih (k + 1)

theorem zeroIdxs_nodup (l : List Nat) : (zeroIdxs l).Nodup :=
  (zeroIdxsAux_sorted l 0).nodup

theorem zeroIdxs_length (l : List Nat) :
    (zeroIdxs l).length = l.countP (fun v => decide (v = 0)) := by
  suffices h : ∀ k, (zeroIdxsAux k l).length = l.countP (fun v => decide (v = 0)) from h 0
  induction l with
  | nil => intro k; rfl
  | cons v rest ih =>
    intro k
    simp only [zeroIdxsAux, List.length_append, ih (k + 1), List.countP_cons]
    by_cases hv0 : v = 0
    all_goals simp [hv0]
    omega

/-! ### The unseen-value cursor -/

theorem unseenFrom_stop (input : List Nat) (n : Nat) (c : Nat) (h : n * n < c) :
    unseenFrom input n c = [] := by
  rw [unseenFrom, dif_neg (by omega)]

theorem unseenFrom_eq_filter (input : List Nat) (n : Nat) :
    ∀ c, unseenFrom input n c =
      (List.range' c (n * n + 1 - c)).filter (fun v => decide (v ∉ input)) := by
  suffices H : ∀ d c, n * n + 1 ≤ c + d → unseenFrom input n c =
      (List.range' c (n * n + 1 - c)).filter (fun v => decide (v ∉ input)) from
    fun c => H (n * n + 1) c (by omega)
  intro d
  induction d with
  | zero =>
    intro c hc
    rw [unseenFrom_stop _ _ _ (by omega), show n * n + 1 - c = 0 by omega]
    rfl
  | succ d ih =>
    intro c hc
    by_cases h : c ≤ n * n
    · rw [unseenFrom, dif_pos h, show n * n + 1 - c = (n * n - c) + 1 by omega,
        List.range'_succ, List.filter_cons]
      have ih' := ih (c + 1) (by omega)
      rw [show n * n + 1 - (c + 1) = n * n - c by omega] at ih'
      by_cases hin : c ∈ input
      · rw [if_pos hin]
        simp [hin, ih']
      · rw [if_neg hin]
        simp [hin, ih']
    · rw [unseenFrom_stop _ _ _ (by omega), show n * n + 1 - c = 0 by omega]
      rfl

theorem unseenFrom_mem (input : List Nat) (n : Nat) (c k : Nat)
    (hk : k ∈ unseenFrom input n c) : c ≤ k ∧ k ≤ n * n ∧ k ∉ input := by
  rw [unseenFrom_eq_filter] at hk
  have h1 := List.mem_filter.mp hk
  have h2 := List.mem_range'_1.mp h1.1
  have h3 : k ∉ input := by simpa using h1.2
  exact ⟨h2.1, by omega, h3⟩

theorem unseenFrom_cons (input : List Nat) (n : Nat) :
    ∀ c k t, unseenFrom input n c = k :: t → t = unseenFrom input n (k + 1) := by
  suffices H : ∀ d c, n * n + 1 ≤ c + d → ∀ k t,
      unseenFrom input n c = k :: t → t = unseenFrom input n (k + 1) from
    fun c => H (n * n + 1) c (by omega)
  intro d
  induction d with
  | zero =>
    intro c hc k t h
    rw [unseenFrom_stop _ _ _ (by omega)] at h
    cases h
  | succ d ih =>
    intro c hc k t h
    by_cases hcn : c ≤ n * n
    · rw [unseenFrom, dif_pos hcn] at h
      by_cases hin : c ∈ input
      · rw [if_pos hin] at h
        exact ih (c + 1) (by omega) k t h
      · rw [if_neg hin] at h
        obtain ⟨h1, h2⟩ := List.cons.inj h
        rw [← h1]
        exact h2.symm
    · rw [unseenFrom_stop _ _ _ (by omega)] at h
      cases h

theorem missingVals_eq_unseenFrom (input : List Nat) (n : Nat) :
    missingVals input n = unseenFrom input n 1 := by
  rw [unseenFrom_eq_filter, missingVals, show n * n + 1 - 1 = n * n by omega]

/-- `next_unseen` delivers exactly the head of the unseen-value list. -/
theorem nextUnseen_eq (input : List Nat) (n : Nat) (c : Nat) :
    nextUnseen (markSeen (List.replicate (n * n + 1) false) input) c =
      (unseenFrom input n c).head? := by
  suffices H : ∀ d c, n * n + 1 ≤ c + d →
      nextUnseen (markSeen (List.replicate (n * n + 1) false) input) c =
        (unseenFrom input n c).head? from H (n * n + 1) c (by omega)
  intro d
  induction d with
  | zero =>
    intro c hc
    have hnone : (markSeen (List.replicate (n * n + 1) false) input)[c]? = none := by
      apply List.getElem?_eq_none
      rw [markSeen_length, List.length_replicate]
      omega
    rw [nextUnseen]
    split
    · rw [unseenFrom_stop _ _ _ (by omega)]
      rfl
    · next h => rw [hnone] at h; cases h
    · next h => rw [hnone] at h; cases h
  | succ d ih =>
    intro c hc
    by_cases hcn : c ≤ n * n
    · have hget : (markSeen (List.replicate (n * n + 1) false) input)[c]? =
          if c ∈ input then some true else some false := by
        rw [markSeen_getElem?, List.length_replicate]
        by_cases hin : c ∈ input
        · rw [if_pos ⟨hin, by omega⟩, if_pos hin]
        · rw [if_neg (by tauto), if_neg hin, List.getElem?_replicate, if_pos (by omega)]
      rw [nextUnseen]
      split
      · next h =>
        rw [hget] at h
        by_cases hin : c ∈ input
        all_goals simp [hin] at h
      · next h =>
        rw [hget] at h
        have hin : c ∈ input := by
          by_contra hni
          simp [hni] at h
        rw [ih (c + 1) (by omega)]
        conv_rhs => rw [unseenFrom]
        rw [dif_pos hcn, if_pos hin]
      · next h =>
        rw [hget] at h
        have hin : c ∉ input := by
          intro hni
          simp [hni] at h
        rw [unseenFrom, dif_pos hcn, if_neg hin]
        rfl
    · have hnone : (markSeen (List.replicate (n * n + 1) false) input)[c]? = none := by
        apply List.getElem?_eq_none
        rw [markSeen_length, List.length_replicate]
        omega
      rw [nextUnseen]
      split
      · rw [unseenFrom_stop _ _ _ (by omega)]
        rfl
      · next h => rw [hnone] at h; cases h
      · next h => rw [hnone] at h; cases h

/-! ### The fill loop and `setAll` -/

theorem setAll_length : ∀ (ps vs b : List Nat), (setAll b ps vs).length = b.length := by
  intro ps
  induction ps with
  | nil => intro vs b; rfl
  | cons p ps ih =>
    intro vs b
    cases vs with
    | nil => rfl
    | cons v vs => rw [setAll, ih, List.length_set]

theorem setAll_getElem?_of_notMem :
    ∀ (ps vs b : List Nat) (q : Nat), q ∉ ps → (setAll b ps vs)[q]? = b[q]? := by
  intro ps
  induction ps with
  | nil => intro vs b q _; rfl
  | cons p ps ih =>
    intro vs b q hq
    cases vs with
    | nil => rfl
    | cons v vs =>
      have hpq : p ≠ q := by
        intro h
        exact hq (by rw [← h]; exact List.mem_cons_self p ps)
      rw [setAll, ih _ _ _ (fun h => hq (List.mem_cons_of_mem _ h)),
        List.getElem?_set_ne hpq]

theorem setAll_map_getD :
    ∀ (ps vs b : List Nat), ps.Nodup → ps.length = vs.length →
      (∀ p ∈ ps, p < b.length) →
      ps.map (fun p => (setAll b ps vs).getD p 0) = vs := by
  intro ps
  induction ps with
  | nil =>
    intro vs b _ hlen _
    cases vs with
    | nil => rfl
    | cons v vs => cases hlen
  | cons p ps ih =>
    intro vs b hnd hlen hb
    cases vs with
    | nil => cases hlen
    | cons v vs =>
      have hp : p ∉ ps := (List.nodup_cons.mp hnd).1
      have hplen : p < b.length := hb p (List.mem_cons_self p ps)
      rw [List.map_cons]
      have hhead : (setAll b (p :: ps) (v :: vs)).getD p 0 = v := by
        rw [setAll, List.getD_eq_getElem?_getD, setAll_getElem?_of_notMem _ _ _ _ hp,
          List.getElem?_set_self hplen]
        rfl
      rw [hhead]
      have htail : ps.map (fun q => (setAll b (p :: ps) (v :: vs)).getD q 0) = vs := by
        rw [show setAll b (p :: ps) (v :: vs) = setAll (b.set p v) ps vs from rfl]
        exact ih vs (b.set p v) (List.nodup_cons.mp hnd).2 (by simpa using hlen)
          (fun q hq => by rw [List.length_set]; exact hb q (List.mem_cons_of_mem _ hq))
      rw [htail]

theorem setAll_mem :
    ∀ (ps vs b : List Nat) (x : Nat), x ∈ setAll b ps vs → x ∈ b ∨ x ∈ vs := by
  intro ps
  induction ps with
  | nil => intro vs b x hx; exact Or.inl hx
  | cons p ps ih =>
    intro vs b x hx
    cases vs with
    | nil => exact Or.inl hx
    | cons v vs =>
      rw [setAll] at hx
      rcases ih _ _ _ hx with h | h
      · rcases List.mem_or_eq_of_mem_set h with h | h
        · exact Or.inl h
        · exact Or.inr (h ▸ List.mem_cons_self v vs)
      · exact Or.inr (List.mem_cons_of_mem _ h)

theorem fill_eq_some (input : List Nat) (n : Nat) :
    ∀ (asg b : List Nat) (c : Nat),
      asg.length ≤ (unseenFrom input n c).length →
      fill b (markSeen (List.replicate (n * n + 1) false) input) asg c =
        some (setAll b asg ((unseenFrom input n c).map (· % 256))) := by
  intro asg
  induction asg with
  | nil => intro b c _; rfl
  | cons idx rest ih =>
    intro b c hlen
    cases e : unseenFrom input n c with
    | nil => rw [e] at hlen; simp at hlen
    | cons k t =>
      have hnext : nextUnseen (markSeen (List.replicate (n * n + 1) false) input) c =
          some k := by
        rw [nextUnseen_eq input n c, e]
        rfl
      have ht : t = unseenFrom input n (k + 1) := unseenFrom_cons input n c k t e
      have hlen' : rest.length ≤ (unseenFrom input n (k + 1)).length := by
        rw [← ht]
        rw [e] at hlen
        simpa using hlen
      rw [fill, hnext]
      show fill (b.set idx (k % 256)) (markSeen (List.replicate (n * n + 1) false) input)
          rest (k + 1) = _
      rw [ih _ _ hlen', ← ht]
      rfl

theorem fill_eq_none (input : List Nat) (n : Nat) :
    ∀ (asg b : List Nat) (c : Nat),
      (unseenFrom input n c).length < asg.length →
      fill b (markSeen (List.replicate (n * n + 1) false) input) asg c = none := by
  intro asg
  induction asg with
  | nil => intro b c h; simp at h
  | cons idx rest ih =>
    intro b c hlen
    cases e : unseenFrom input n c with
    | nil =>
      have hnext : nextUnseen (markSeen (List.replicate (n * n + 1) false) input) c =
          none := by
        rw [nextUnseen_eq input n c, e]
        rfl
      rw [fill, hnext]
    | cons k t =>
      have hnext : nextUnseen (markSeen (List.replicate (n * n + 1) false) input) c =
          some k := by
        rw [nextUnseen_eq input n c, e]
        rfl
      have ht : t = unseenFrom input n (k + 1) := unseenFrom_cons input n c k t e
      rw [fill, hnext]
      show fill (b.set idx (k % 256)) (markSeen (List.replicate (n * n + 1) false) input)
          rest (k + 1) = none
      apply ih
      rw [← ht]
      rw [e] at hlen
      simpa using hlen

/-! ### Counting: the unseen values suffice for the zero cells -/

theorem length_filter_add (p : Nat → Bool) (l : List Nat) :
    (l.filter p).length + (l.filter (fun a => !(p a))).length = l.length := by
  induction l with
  | nil => rfl
  | cons v rest ih =>
    rw [List.filter_cons, List.filter_cons]
    cases hp : p v
    · simp [hp]
      omega
    · simp [hp]
      omega

theorem missingVals_length_add (input : List Nat) (n : Nat) :
    (missingVals input n).length +
      ((List.range' 1 (n * n)).filter (fun v => decide (v ∈ input))).length = n * n := by
  have hfun : (fun a : Nat => !(decide (a ∉ input))) = fun a => decide (a ∈ input) := by
    funext a
    simp [decide_not]
  have h := length_filter_add (fun v => decide (v ∉ input)) (List.range' 1 (n * n))
  rw [hfun] at h
  rw [List.length_range'] at h
  rw [missingVals]
  exact h

theorem filterIn_length_le (input : List Nat) (n : Nat)
    (_hvals : ∀ v ∈ input, v ≤ n * n) :
    ((List.range' 1 (n * n)).filter (fun v => decide (v ∈ input))).length ≤
      (input.filter (fun v => decide (v ≠ 0))).length := by
  apply List.Subperm.length_le
  apply List.Nodup.subperm
  · exact (List.nodup_range' 1 (n * n)).filter _
  · intro x hx
    have h1 := List.mem_filter.mp hx
    have h2 := List.mem_range'_1.mp h1.1
    have h3 : x ∈ input := by simpa using h1.2
    refine List.mem_filter.mpr ⟨h3, ?_⟩
    simp only [decide_eq_true_eq]
    omega

theorem zeroIdxs_filter_length (input : List Nat) :
    (input.filter (fun v => decide (v ≠ 0))).length + (zeroIdxs input).length =
      input.length := by
  rw [zeroIdxs_length, List.countP_eq_length_filter]
  have hfun : (fun a : Nat => !(decide (a ≠ 0))) = fun a => decide (a = 0) := by
    funext a
    simp [decide_not]
  have h := length_filter_add (fun v => decide (v ≠ 0)) input
  rw [hfun] at h
  exact h

theorem zeroIdxs_length_le_missingVals (input : List Nat) (n : Nat)
    (hlen : input.length = n * n) (hvals : ∀ v ∈ input, v ≤ n * n) :
    (zeroIdxs input).length ≤ (missingVals input n).length := by
  have h1 := missingVals_length_add input n
  have h2 := filterIn_length_le input n hvals
  have h3 := zeroIdxs_filter_length input
  omega

theorem zeroIdxs_length_eq_missingVals (input : List Nat) (n : Nat)
    (hv : ValidInput input n) :
    (zeroIdxs input).length = (missingVals input n).length := by
  obtain ⟨hlen, hvals, hnd⟩ := hv
  have hperm : (input.filter (fun v => decide (v ≠ 0))).Perm
      ((List.range' 1 (n * n)).filter (fun v => decide (v ∈ input))) := by
    rw [List.perm_ext_iff_of_nodup hnd ((List.nodup_range' 1 (n * n)).filter _)]
    intro a
    simp only [List.mem_filter, List.mem_range'_1, decide_eq_true_eq]
    constructor
    · rintro ⟨ha, h0⟩
      have := hvals a ha
      exact ⟨⟨by omega, by omega⟩, ha⟩
    · rintro ⟨⟨h1, h2⟩, ha⟩
      exact ⟨ha, by omega⟩
  have h1 := missingVals_length_add input n
  have h2 := hperm.length_eq
  have h3 := zeroIdxs_filter_length input
  omega

/-! ### The full characterization of `State::new` -/

theorem scanBoard_eq_none (input : List Nat) :
    ∀ (seen : List Bool) (asg : List Nat) (idx : Nat),
      (∃ v ∈ input, seen.length ≤ v) → scanBoard seen asg idx input = none := by
  induction input with
  | nil =>
    rintro seen asg idx ⟨v, hv, _⟩
    cases hv
  | cons w rest ih =>
    rintro seen asg idx ⟨v, hv, hvl⟩
    by_cases hw : w < seen.length
    · simp only [scanBoard, if_pos hw]
      apply ih
      rcases List.mem_cons.mp hv with h | h
      · omega
      · exact ⟨v, h, by rw [List.length_set]; exact hvl⟩
    · simp [scanBoard, if_neg hw]

/-- On a well-sized input whose values fit the `seen` table, `State::new`
succeeds and produces exactly the deterministic fill. -/
theorem new_eq_ok (input : List Nat) (n : Nat)
    (hlen : input.length = n * n) (hvals : ∀ v ∈ input, v ≤ n * n) :
    State.new input n = some (Except.ok
      { board := setAll input (zeroIdxs input) ((missingVals input n).map (· % 256)),
        n := n, assignments := zeroIdxs input }) := by
  have hz := zeroIdxs_length_le_missingVals input n hlen hvals
  unfold State.new
  rw [if_neg (by omega)]
  rw [scanBoard_eq_some input _ [] 0
    (fun v hv => by rw [List.length_replicate]; have := hvals v hv; omega)]
  dsimp only [List.nil_append]
  rw [show zeroIdxsAux 0 input = zeroIdxs input from rfl]
  rw [fill_eq_some input n (zeroIdxs input) input 1
    (by rw [← missingVals_eq_unseenFrom]; exact hz)]
  rw [← missingVals_eq_unseenFrom]

theorem new_eq_none_of_bad_value (input : List Nat) (n : Nat)
    (hlen : input.length = n * n) (hbad : ∃ v ∈ input, n * n < v) :
    State.new input n = none := by
  unfold State.new
  rw [if_neg (by omega)]
  rw [scanBoard_eq_none input _ [] 0
    (by obtain ⟨v, hv, hvn⟩ := hbad
        exact ⟨v, hv, by rw [List.length_replicate]; omega⟩)]

/-- The construction error is `BoardLength`, raised exactly when the
input length differs from `n*n`, before any other processing. -/
theorem new_error_iff (input : List Nat) (n : Nat) :
    State.new input n = some (Except.error KingsWalkError.BoardLength) ↔
      input.length ≠ n * n := by
  constructor
  · intro hs
    by_contra hl
    by_cases hv : ∀ v ∈ input, v ≤ n * n
    · rw [new_eq_ok input n hl hv] at hs
      cases hs
    · push_neg at hv
      rw [new_eq_none_of_bad_value input n hl (by
        obtain ⟨v, hv1, hv2⟩ := hv
        exact ⟨v, hv1, by omega⟩)] at hs
      cases hs
  · intro hl
    unfold State.new
    rw [if_pos hl]

/-- `State::new` returns `Ok` exactly on well-sized inputs whose values
are at most `n*n`; inputs of the right length holding a larger value make
the Rust program panic instead. -/
theorem new_isOk_iff (input : List Nat) (n : Nat) :
    (∃ s, State.new input n = some (Except.ok s)) ↔
      (input.length = n * n ∧ ∀ v ∈ input, v ≤ n * n) := by
  constructor
  · rintro ⟨s, hs⟩
    by_cases hl : input.length = n * n
    · refine ⟨hl, ?_⟩
      by_contra hv
      push_neg at hv
      rw [new_eq_none_of_bad_value input n hl (by
        obtain ⟨v, hv1, hv2⟩ := hv
        exact ⟨v, hv1, by omega⟩)] at hs
      cases hs
    · rw [(new_error_iff input n).mpr hl] at hs
      cases hs
  · rintro ⟨hlen, hvals⟩
    exact ⟨_, new_eq_ok input n hlen hvals⟩

/-! ### Basic facts about `listSwap` -/

theorem listSwap_length (l : List Nat) (i j : Nat) :
    (listSwap l i j).length = l.length := by
  unfold listSwap
  cases h1 : l[i]? <;> cases h2 : l[j]? <;> simp

theorem lt_length_of_getElem?_eq_some {l : List Nat} {i : Nat} {a : Nat}
    (h : l[i]? = some a) : i < l.length := by
  by_contra hk
  simp [List.getElem?_eq_none (Nat.le_of_not_lt hk)] at h

theorem listSwap_self (l : List Nat) (i : Nat) : listSwap l i i = l := by
  unfold listSwap
  cases h : l[i]? with
  | none => rfl
  | some a =>
    have hi : i < l.length := lt_length_of_getElem?_eq_some h
    apply List.ext_getElem?
    intro m
    simp only [List.getElem?_set, List.length_set]
    by_cases him : i = m
    · subst him
      simp [hi, h.symm]
    · simp [him]

theorem listSwap_getElem? (l : List Nat) (i j m : Nat)
    (hi : i < l.length) (hj : j < l.length) :
    (listSwap l i j)[m]? = if m = j then l[i]? else if m = i then l[j]? else l[m]? := by
  by_cases hij : i = j
  · subst hij
    rw [listSwap_self]
    by_cases hmi : m = i <;> simp [hmi]
  · unfold listSwap
    rw [List.getElem?_eq_getElem hi, List.getElem?_eq_getElem hj]
    simp only
    by_cases hmj : m = j
    · subst hmj
      have hm' : m < (l.set i (l[m])).length := by simpa using hj
      rw [List.getElem?_set_self hm']
      simp
    · have hjm : j ≠ m := fun h => hmj h.symm
      rw [List.getElem?_set_ne hjm]
      by_cases hmi : m = i
      · subst hmi
        rw [List.getElem?_set_self hi]
        simp [hmj]
      · have him : i ≠ m := fun h => hmi h.symm
        rw [List.getElem?_set_ne him]
        simp [hmj, hmi]

theorem listSwap_getElem?_other (l : List Nat) (i j m : Nat)
    (hmi : m ≠ i) (hmj : m ≠ j) :
    (listSwap l i j)[m]? = l[m]? := by
  have him : i ≠ m := fun h => hmi h.symm
  have hjm : j ≠ m := fun h => hmj h.symm
  unfold listSwap
  cases h1 : l[i]? with
  | none => rfl
  | some a =>
    cases h2 : l[j]? with
    | none => rfl
    | some b =>
      rw [List.getElem?_set_ne hjm, List.getElem?_set_ne him]

theorem listSwap_perm (l : List Nat) (i j : Nat)
    (hi : i < l.length) (hj : j < l.length) : (listSwap l i j).Perm l := by
  by_cases hij : i = j
  · subst hij
    rw [listSwap_self]
  · rw [List.perm_iff_count]
    intro b
    unfold listSwap
    rw [List.getElem?_eq_getElem hi, List.getElem?_eq_getElem hj]
    simp only
    have hj' : j < (l.set i (l[j])).length := by simpa using hj
    rw [List.count_set _ _ _ _ hj', List.count_set _ _ _ _ hi]
    have hset : (l.set i (l[j]))[j] = l[j] := by
      rw [List.getElem_set]
      simp [hij]
    rw [hset]
    have hcount : (if (l[i] == b) = true then 1 else 0) ≤ List.count b l := by
      by_cases hb : l[i] = b
      · simp only [hb, beq_self_eq_true, if_true]
        exact List.one_le_count_iff.mpr (hb ▸ l.getElem_mem hi)
      · simp [hb]
    by_cases hbi : l[i] = b <;> by_cases hbj : l[j] = b <;>
      simp only [hbi, hbj, beq_self_eq_true, if_true, if_neg, beq_iff_eq] <;>
      simp_all

/-! ### Facts about `applySwapsAux` and `random_start` -/

theorem applySwapsAux_length (js : List Nat) :
    ∀ (b asg : List Nat) (k : Nat), (applySwapsAux b asg js k).length = b.length := by
  induction js with
  | nil => intro b asg k; rfl
  | cons j rest ih =>
    intro b asg k
    rw [applySwapsAux, ih, listSwap_length]

theorem applySwapsAux_getElem?_other (js : List Nat) :
    ∀ (b asg : List Nat) (k q : Nat),
      (∀ i < js.length,
        asg.getD (k + i) 0 ≠ q ∧ asg.getD (js.getD i 0 + (k + i)) 0 ≠ q) →
      (applySwapsAux b asg js k)[q]? = b[q]? := by
  induction js with
  | nil => intro b asg k q _; rfl
  | cons j rest ih =>
    intro b asg k q hq
    have h0 := hq 0 (by simp)
    rw [applySwapsAux, ih]
    · exact listSwap_getElem?_other b _ _ q
        (Ne.symm (by simpa using h0.1)) (Ne.symm (by simpa using h0.2))
    · intro i hi
      have h := hq (i + 1) (by simpa using Nat.succ_lt_succ hi)
      have e1 : k + (i + 1) = k + 1 + i := by omega
      have e2 : (List.cons j rest).getD (i + 1) 0 = rest.getD i 0 := rfl
      rw [e2, e1] at h
      exact h

theorem applySwapsAux_perm (js : List Nat) :
    ∀ (b asg : List Nat) (k : Nat),
      (∀ i < js.length,
        asg.getD (k + i) 0 < b.length ∧ asg.getD (js.getD i 0 + (k + i)) 0 < b.length) →
      (applySwapsAux b asg js k).Perm b := by
  induction js with
  | nil => intro b asg k _; rfl
  | cons j rest ih =>
    intro b asg k hq
    have h0 := hq 0 (by simp)
    rw [applySwapsAux]
    refine List.Perm.trans (ih _ asg (k + 1) ?_) ?_
    · intro i hi
      have h := hq (i + 1) (by simpa using Nat.succ_lt_succ hi)
      have e1 : k + (i + 1) = k + 1 + i := by omega
      have e2 : (List.cons j rest).getD (i + 1) 0 = rest.getD i 0 := rfl
      rw [e2, e1] at h
      rw [listSwap_length]
      exact h
    · exact listSwap_perm b _ _ (by simpa using h0.1) (by simpa using h0.2)

theorem swapsOf_length (m : Nat) (f : Nat → Nat) :
    (swapsOf m f).length = m - 1 := by
  simp [swapsOf]

theorem swapsOf_getD (m : Nat) (f : Nat → Nat) (i : Nat) (hi : i < m - 1) :
    (swapsOf m f).getD i 0 = f i % (m - 1 - i) := by
  rw [List.getD_eq_getElem _ _ (by simpa [swapsOf_length] using hi)]
  simp [swapsOf]

theorem swapsOf_getD_add_lt (m : Nat) (f : Nat → Nat) (i : Nat) (hi : i < m - 1) :
    (swapsOf m f).getD i 0 + i < m - 1 := by
  rw [swapsOf_getD m f i hi]
  have := Nat.mod_lt (f i) (y := m - 1 - i) (by omega)
  omega

theorem getD_mem {asg : List Nat} {i : Nat} (hi : i < asg.length) :
    asg.getD i 0 ∈ asg := by
  rw [List.getD_eq_getElem _ _ hi]
  exact asg.getElem_mem hi

/-- `random_start` never touches a board position outside `assignments`. -/
theorem randomStart_getElem?_of_notMem (s : State) (f : Nat → Nat) (q : Nat)
    (hq : q ∉ s.assignments) :
    ((s.random_start f).1).board[q]? = s.board[q]? := by
  apply applySwapsAux_getElem?_other
  intro i hi
  rw [swapsOf_length] at hi
  have h1 : (0 : Nat) + i < s.assignments.length - 1 := by omega
  have h2 := swapsOf_getD_add_lt s.assignments.length f i hi
  constructor
  · intro h
    exact hq (h ▸ getD_mem (by omega))
  · intro h
    exact hq (h ▸ getD_mem (by omega))

/-- The board after `random_start` is a permutation of the board before
(provided the assignment indices are in bounds, as they are for validly
constructed states). -/
theorem randomStart_board_perm (s : State) (f : Nat → Nat)
    (hb : ∀ i ∈ s.assignments, i < s.board.length) :
    ((s.random_start f).1).board.Perm s.board := by
  apply applySwapsAux_perm
  intro i hi
  rw [swapsOf_length] at hi
  have h2 := swapsOf_getD_add_lt s.assignments.length f i hi
  exact ⟨hb _ (getD_mem (by omega)), hb _ (getD_mem (by omega))⟩

/-- Every swap performed by `random_start` targets entries of
`assignments` at list positions strictly before the last, so with
distinct assignment indices the value at the last mutable position never
changes. -/
theorem randomStart_last_getElem? (s : State) (f : Nat → Nat)
    (hnd : s.assignments.Nodup) (hne : s.assignments ≠ []) :
    ((s.random_start f).1).board[s.assignments.getD (s.assignments.length - 1) 0]? =
      s.board[s.assignments.getD (s.assignments.length - 1) 0]? := by
  have hlen : 0 < s.assignments.length := List.length_pos.mpr hne
  apply applySwapsAux_getElem?_other
  intro i hi
  rw [swapsOf_length] at hi
  have h2 := swapsOf_getD_add_lt s.assignments.length f i hi
  have key : ∀ t, t < s.assignments.length - 1 →
      s.assignments.getD t 0 ≠ s.assignments.getD (s.assignments.length - 1) 0 := by
    intro t ht h
    have ht' : t < s.assignments.length := by omega
    have hl' : s.assignments.length - 1 < s.assignments.length := by omega
    rw [List.getD_eq_getElem _ _ ht', List.getD_eq_getElem _ _ hl'] at h
    have := (hnd.getElem_inj_iff).mp h
    omega
  exact ⟨key _ (by omega), key _ (by omega)⟩

/-! ### The deterministic fill, structurally -/

theorem fillZeros_nil : ∀ l : List Nat, fillZeros l [] = l := by
  intro l
  induction l with
  | nil => rfl
  | cons v rest ih =>
    cases v with
    | zero =>
      show (0 : Nat) :: fillZeros rest [] = 0 :: rest
      rw [ih]
    | succ v =>
      show (v + 1) :: fillZeros rest [] = (v + 1) :: rest
      rw [ih]

theorem setAll_map_succ :
    ∀ (ps vs t : List Nat) (x : Nat),
      setAll (x :: t) (ps.map (· + 1)) vs = x :: setAll t ps vs := by
  intro ps
  induction ps with
  | nil => intro vs t x; rfl
  | cons p ps ih =>
    intro vs t x
    cases vs with
    | nil => rfl
    | cons v vs =>
      rw [List.map_cons]
      show setAll ((x :: t).set (p + 1) v) (ps.map (· + 1)) vs =
        x :: setAll (t.set p v) ps vs
      rw [List.set_cons_succ, ih]

/-- The fill performed by `State::new` is exactly the structural
"replace zeros left to right" description of the spec. -/
theorem setAll_zeroIdxs_eq_fillZeros :
    ∀ (l ms : List Nat), setAll l (zeroIdxs l) ms = fillZeros l ms := by
  intro l
  induction l with
  | nil => intro ms; rfl
  | cons v rest ih =>
    intro ms
    cases v with
    | zero =>
      rw [zeroIdxs_cons]
      cases ms with
      | nil =>
        simp only [if_pos rfl, List.singleton_append]
        rw [fillZeros_nil]
        rfl
      | cons m ms =>
        simp only [if_pos rfl, List.singleton_append]
        show setAll (m :: rest) ((zeroIdxs rest).map (· + 1)) ms = m :: fillZeros rest ms
        rw [setAll_map_succ, ih]
    | succ v =>
      rw [zeroIdxs_cons, if_neg (by omega), List.nil_append, setAll_map_succ, ih]
      rfl

theorem fillZeros_perm :
    ∀ (l ms : List Nat), l.countP (fun v => decide (v = 0)) = ms.length →
      (fillZeros l ms).Perm ((l.filter (fun v => decide (v ≠ 0))) ++ ms) := by
  intro l
  induction l with
  | nil =>
    intro ms h
    rw [List.countP_nil] at h
    cases ms with
    | nil => rfl
    | cons m ms => cases h
  | cons v rest ih =>
    intro ms h
    cases v with
    | zero =>
      rw [List.countP_cons] at h
      cases ms with
      | nil => simp at h
      | cons m ms =>
        rw [List.filter_cons, if_neg (by simp)]
        show (m :: fillZeros rest ms).Perm _
        refine ((ih ms (by simp at h; omega)).cons m).trans ?_
        exact List.perm_middle.symm
    | succ v =>
      rw [List.countP_cons] at h
      rw [List.filter_cons, if_pos (by simp), List.cons_append]
      show ((v + 1) :: fillZeros rest ms).Perm _
      refine List.Perm.cons _ (ih ms ?_)
      simp at h
      simpa using h

/-! ### Swaps inside the assignment positions preserve the mutable values -/

theorem map_getD_listSwap_perm (board asg : List Nat) (hnd : asg.Nodup)
    (a b : Nat) (ha : a ∈ asg) (hb : b ∈ asg)
    (hal : a < board.length) (hbl : b < board.length) :
    (asg.map (fun i => (listSwap board a b).getD i 0)).Perm
      (asg.map (fun i => board.getD i 0)) := by
  by_cases hab : a = b
  · subst hab
    rw [listSwap_self]
  · have h1 : asg.Perm (a :: asg.erase a) := List.perm_cons_erase ha
    have hb' : b ∈ asg.erase a := (List.mem_erase_of_ne (fun h => hab h.symm)).mpr hb
    have h2 : (asg.erase a).Perm (b :: (asg.erase a).erase b) := List.perm_cons_erase hb'
    have h3 : asg.Perm (a :: b :: (asg.erase a).erase b) := h1.trans (h2.cons a)
    have hnd3 : (a :: b :: (asg.erase a).erase b).Nodup := h3.nodup_iff.mp hnd
    have hanotin : a ∉ b :: (asg.erase a).erase b := (List.nodup_cons.mp hnd3).1
    have hbnotin : b ∉ (asg.erase a).erase b :=
      (List.nodup_cons.mp (List.nodup_cons.mp hnd3).2).1
    rw [List.perm_iff_count]
    intro v
    rw [((h3.map (fun i => (listSwap board a b).getD i 0)).count_eq v),
      ((h3.map (fun i => board.getD i 0)).count_eq v)]
    have hva : (listSwap board a b).getD a 0 = board.getD b 0 := by
      rw [List.getD_eq_getElem?_getD, List.getD_eq_getElem?_getD,
        listSwap_getElem? board a b a hal hbl, if_neg hab, if_pos rfl]
    have hvb : (listSwap board a b).getD b 0 = board.getD a 0 := by
      rw [List.getD_eq_getElem?_getD, List.getD_eq_getElem?_getD,
        listSwap_getElem? board a b b hal hbl, if_pos rfl]
    have hrest : ((asg.erase a).erase b).map (fun i => (listSwap board a b).getD i 0) =
        ((asg.erase a).erase b).map (fun i => board.getD i 0) := by
      apply List.map_congr_left
      intro i hi
      have hia : i ≠ a := by
        intro h
        subst h
        exact hanotin (List.mem_cons_of_mem _ hi)
      have hib : i ≠ b := by
        intro h
        subst h
        exact hbnotin hi
      rw [List.getD_eq_getElem?_getD, List.getD_eq_getElem?_getD,
        listSwap_getElem?_other board a b i hia hib]
    rw [List.map_cons, List.map_cons, List.map_cons, List.map_cons, hva, hvb, hrest,
      List.count_cons, List.count_cons, List.count_cons, List.count_cons]
    by_cases h1v : board.getD a 0 = v <;> by_cases h2v : board.getD b 0 = v <;>
      simp [h1v, h2v] <;> omega

theorem applySwapsAux_map_getD_perm (js : List Nat) :
    ∀ (b asg : List Nat) (k : Nat), asg.Nodup → (∀ i ∈ asg, i < b.length) →
      (∀ i < js.length, k + i < asg.length ∧ js.getD i 0 + (k + i) < asg.length) →
      (asg.map (fun i => (applySwapsAux b asg js k).getD i 0)).Perm
        (asg.map (fun i => b.getD i 0)) := by
  induction js with
  | nil => intro b asg k _ _ _; rfl
  | cons j rest ih =>
    intro b asg k hnd hbound hidx
    have h0 := hidx 0 (by simp)
    rw [applySwapsAux]
    have hk : k + 0 = k := rfl
    rw [hk] at h0
    have hj0 : (List.cons j rest).getD 0 0 = j := rfl
    rw [hj0] at h0
    have hmem1 : asg.getD k 0 ∈ asg := getD_mem h0.1
    have hmem2 : asg.getD (j + k) 0 ∈ asg := getD_mem h0.2
    refine List.Perm.trans (ih _ asg (k + 1) hnd ?_ ?_) ?_
    · intro i hi
      rw [listSwap_length]
      exact hbound i hi
    · intro i hi
      have h := hidx (i + 1) (by simpa using Nat.succ_lt_succ hi)
      have e1 : k + (i + 1) = k + 1 + i := by omega
      have e2 : (List.cons j rest).getD (i + 1) 0 = rest.getD i 0 := rfl
      rw [e2, e1] at h
      exact h
    · exact map_getD_listSwap_perm b asg hnd _ _ hmem1 hmem2
        (hbound _ hmem1) (hbound _ hmem2)

/-- The mutable values are preserved (as a multiset) by `random_start`. -/
theorem randomStart_map_getD_perm (s : State) (f : Nat → Nat)
    (hnd : s.assignments.Nodup) (hb : ∀ i ∈ s.assignments, i < s.board.length) :
    (s.assignments.map (fun i => ((s.random_start f).1).board.getD i 0)).Perm
      (s.assignments.map (fun i => s.board.getD i 0)) := by
  apply applySwapsAux_map_getD_perm _ _ _ _ hnd hb
  intro i hi
  rw [swapsOf_length] at hi
  have h2 := swapsOf_getD_add_lt s.assignments.length f i hi
  constructor
  · omega
  · omega

/-! ### Fields and invariant of a freshly constructed state -/

theorem new_ok_fields (input : List Nat) (n : Nat) (s : State)
    (hs : State.new input n = some (Except.ok s)) :
    s.board = setAll input (zeroIdxs input) ((missingVals input n).map (· % 256)) ∧
      s.n = n ∧ s.assignments = zeroIdxs input ∧
      s.board.length = n * n ∧ input.length = n * n := by
  obtain ⟨hlen, hvals⟩ := (new_isOk_iff input n).mp ⟨s, hs⟩
  rw [new_eq_ok input n hlen hvals] at hs
  obtain rfl := (Except.ok.inj (Option.some.inj hs)).symm
  refine ⟨rfl, rfl, rfl, ?_, hlen⟩
  show (setAll input (zeroIdxs input) _).length = n * n
  rw [setAll_length]
  exact hlen

theorem missingVals_map_mod (input : List Nat) (n : Nat) (hn : n ≤ 15) :
    (missingVals input n).map (· % 256) = missingVals input n := by
  have hid : ∀ a ∈ missingVals input n, a % 256 = id a := by
    intro a ha
    have h1 := List.mem_filter.mp ha
    have h2 := List.mem_range'_1.mp h1.1
    have hns : n * n ≤ 225 := Nat.mul_le_mul hn hn
    show a % 256 = a
    exact Nat.mod_eq_of_lt (by omega)
  rw [List.map_congr_left hid, List.map_id]

theorem construct_board_perm (input : List Nat) (n : Nat) (hv : ValidInput input n) :
    (fillZeros input (missingVals input n)).Perm (List.range' 1 (n * n)) := by
  obtain ⟨hlen, hvals, hnd⟩ := hv
  have hcount : input.countP (fun v => decide (v = 0)) = (missingVals input n).length := by
    rw [← zeroIdxs_length, zeroIdxs_length_eq_missingVals input n ⟨hlen, hvals, hnd⟩]
  refine (fillZeros_perm input _ hcount).trans ?_
  have hnodup2 : (missingVals input n).Nodup := (List.nodup_range' 1 (n * n)).filter _
  have hdisj : (input.filter (fun v => decide (v ≠ 0))).Disjoint (missingVals input n) := by
    intro x hx1 hx2
    have h1 := (List.mem_filter.mp hx1).1
    have h2 := List.mem_filter.mp hx2
    exact absurd h1 (by simpa using h2.2)
  rw [List.perm_ext_iff_of_nodup (hnd.append hnodup2 hdisj) (List.nodup_range' 1 (n * n))]
  intro a
  rw [List.mem_append, List.mem_filter, missingVals, List.mem_filter, List.mem_range'_1]
  constructor
  · rintro (⟨ha, h0⟩ | ⟨ha, h0⟩)
    · have := hvals a ha
      simp only [decide_eq_true_eq] at h0
      omega
    · exact ha
  · intro ha
    by_cases hain : a ∈ input
    · left
      refine ⟨hain, ?_⟩
      simp only [decide_eq_true_eq]
      omega
    · right
      exact ⟨ha, by simpa using hain⟩

/-- A freshly constructed state from a valid input (with `n ≤ 15`, so that
the `u8` cast does not truncate) satisfies the central invariant. -/
theorem new_ok_inv (input : List Nat) (n : Nat) (s : State)
    (hv : ValidInput input n) (hn : n ≤ 15)
    (hs : State.new input n = some (Except.ok s)) : Inv input n s := by
  obtain ⟨hb, hsn, hasg, hblen, hilen⟩ := new_ok_fields input n s hs
  rw [missingVals_map_mod input n hn] at hb
  have hcount : (zeroIdxs input).length = (missingVals input n).length :=
    zeroIdxs_length_eq_missingVals input n hv
  refine ⟨hv.1, hsn, hasg, hblen, ?_, ?_, ?_⟩
  · rw [hb, setAll_zeroIdxs_eq_fillZeros]
    exact construct_board_perm input n hv
  · intro i hi h0
    rw [hb]
    have hnotmem : i ∉ zeroIdxs input := by
      rw [mem_zeroIdxs]
      intro hcontra
      exact h0 hcontra.2
    rw [List.getD_eq_getElem?_getD, setAll_getElem?_of_notMem _ _ _ _ hnotmem,
      ← List.getD_eq_getElem?_getD]
  · rw [hasg, hb]
    rw [setAll_map_getD (zeroIdxs input) (missingVals input n) input
      (zeroIdxs_nodup input) hcount (fun p hp => ((mem_zeroIdxs input p).mp hp).1)]

/-- `random_start` preserves the central invariant for any draw stream. -/
theorem inv_random_start (input : List Nat) (n : Nat) (s : State) (f : Nat → Nat)
    (h : Inv input n s) : Inv input n ((s.random_start f).1) := by
  obtain ⟨hil, hsn, hasg, hblen, hperm, hfix, hmut⟩ := h
  have hnd : s.assignments.Nodup := by
    rw [hasg]
    exact zeroIdxs_nodup input
  have hbound : ∀ i ∈ s.assignments, i < s.board.length := by
    intro i hi
    rw [hasg] at hi
    have := ((mem_zeroIdxs input i).mp hi).1
    omega
  refine ⟨hil, hsn, hasg, ?_, ?_, ?_, ?_⟩
  · show (applySwapsAux s.board s.assignments _ 0).length = n * n
    rw [applySwapsAux_length]
    exact hblen
  · exact (randomStart_board_perm s f hbound).trans hperm
  · intro i hi h0
    have hnm : i ∉ s.assignments := by
      rw [hasg, mem_zeroIdxs]
      intro hcontra
      exact h0 hcontra.2
    rw [List.getD_eq_getElem?_getD, randomStart_getElem?_of_notMem s f i hnm,
      ← List.getD_eq_getElem?_getD]
    exact hfix i hi h0
  · exact (randomStart_map_getD_perm s f hnd hbound).trans hmut

/-! ### The best-swap scan of `State::step` -/

theorem pairList_mem :
    ∀ (asg : List Nat) (p : Nat × Nat), p ∈ pairList asg → p.1 ∈ asg ∧ p.2 ∈ asg := by
  intro asg
  induction asg with
  | nil => intro p hp; cases hp
  | cons i rest ih =>
    intro p hp
    rw [pairList, List.mem_append] at hp
    rcases hp with hp | hp
    · obtain ⟨j, hj, hpe⟩ := List.mem_map.mp hp
      rw [← hpe]
      exact ⟨List.mem_cons_self i rest, List.mem_cons_of_mem _ hj⟩
    · have := ih p hp
      exact ⟨List.mem_cons_of_mem _ this.1, List.mem_cons_of_mem _ this.2⟩

/-- Full characterization of the accumulator scan: the final value is the
maximum of the start value and all scanned values, and when it strictly
exceeds the start value the recorded entry is the first list element
attaining the maximum. -/
theorem bestFoldAux_spec (f : Nat × Nat → Nat) :
    ∀ (l : List (Nat × Nat)) (h : Nat) (b : Option (Nat × Nat)),
      h ≤ (bestFoldAux f l (h, b)).1 ∧
      (∀ p ∈ l, f p ≤ (bestFoldAux f l (h, b)).1) ∧
      (((bestFoldAux f l (h, b)).1 = h ∧ (bestFoldAux f l (h, b)).2 = b) ∨
        (h < (bestFoldAux f l (h, b)).1 ∧
          ∃ p, (bestFoldAux f l (h, b)).2 = some p ∧
            f p = (bestFoldAux f l (h, b)).1 ∧
            List.find? (fun q => decide (f q = (bestFoldAux f l (h, b)).1)) l = some p)) := by
  intro l
  induction l with
  | nil =>
    intro h b
    exact ⟨Nat.le_refl h, fun p hp => absurd hp (List.not_mem_nil p), Or.inl ⟨rfl, rfl⟩⟩
  | cons q rest ih =>
    intro h b
    have hunfold : bestFoldAux f (q :: rest) (h, b) =
        bestFoldAux f rest (if h < f q then (f q, some q) else (h, b)) := rfl
    rw [hunfold]
    by_cases hq : h < f q
    · rw [if_pos hq]
      obtain ⟨ih1, ih2, ih3⟩ := ih (f q) (some q)
      refine ⟨by omega, ?_, ?_⟩
      · intro p hp
        rcases List.mem_cons.mp hp with hpe | hp
        · subst hpe; exact ih1
        · exact ih2 p hp
      · rcases ih3 with ⟨he, hb⟩ | ⟨hlt, p, hp2, hfp, hfind⟩
        · right
          refine ⟨by omega, q, hb, he.symm, ?_⟩
          exact List.find?_cons_of_pos rest (by simp [he])
        · right
          refine ⟨by omega, p, hp2, hfp, ?_⟩
          rw [List.find?_cons_of_neg rest (by simp; omega)]
          exact hfind
    · rw [if_neg hq]
      obtain ⟨ih1, ih2, ih3⟩ := ih h b
      refine ⟨ih1, ?_, ?_⟩
      · intro p hp
        rcases List.mem_cons.mp hp with hpe | hp
        · subst hpe; omega
        · exact ih2 p hp
      · rcases ih3 with ⟨he, hb⟩ | ⟨hlt, p, hp2, hfp, hfind⟩
        · exact Or.inl ⟨he, hb⟩
        · right
          refine ⟨hlt, p, hp2, hfp, ?_⟩
          rw [List.find?_cons_of_neg rest (by simp; omega)]
          exact hfind

/-- Full characterization of `State::step`. -/
theorem step_spec (s : State) (sc : Nat) :
    sc ≤ (s.step sc).2 ∧
    (∀ p ∈ pairList s.assignments, trialScore s p ≤ (s.step sc).2) ∧
    ((s.step sc).2 = sc → (s.step sc).1 = s) ∧
    (sc < (s.step sc).2 →
      ∃ p, p ∈ pairList s.assignments ∧
        List.find? (fun q => decide (trialScore s q = (s.step sc).2))
          (pairList s.assignments) = some p ∧
        (s.step sc).1 = { s with board := listSwap s.board p.1 p.2 } ∧
        (s.step sc).2 = trialScore s p) := by
  obtain ⟨h1, h2, h3⟩ := bestFoldAux_spec (trialScore s) (pairList s.assignments) sc none
  rcases h3 with ⟨he, hb⟩ | ⟨hlt, p, hp2, hfp, hfind⟩
  · have hstep : s.step sc = (s, sc) := by
      simp only [State.step]
      rw [hb, he]
    rw [hstep]
    refine ⟨h1.trans (by rw [he]), ?_, fun _ => rfl, ?_⟩
    · intro p hp
      have := h2 p hp
      rw [he] at this
      exact this
    · intro hcontra
      omega
  · obtain ⟨i, j⟩ := p
    have hstep : s.step sc =
        ({ s with board := listSwap s.board i j },
          (bestFoldAux (trialScore s) (pairList s.assignments) (sc, none)).1) := by
      simp only [State.step]
      rw [hp2]
    rw [hstep]
    refine ⟨h1, h2, ?_, ?_⟩
    · intro hcontra
      omega
    · intro _
      exact ⟨(i, j), List.mem_of_find?_eq_some hfind, hfind, rfl, hfp.symm⟩

/-- When `step` improves, the returned value is the score of the returned
state. -/
theorem step_score_eq (s : State) (sc : Nat) (h : sc < (s.step sc).2) :
    (s.step sc).2 = ((s.step sc).1).score := by
  obtain ⟨-, -, -, h4⟩ := step_spec s sc
  obtain ⟨p, hp, hfind, hb, hs2⟩ := h4 h
  rw [hs2, hb]
  rfl

theorem inv_bound (input : List Nat) (n : Nat) (s : State) (h : Inv input n s) :
    (∀ i ∈ s.assignments, i < s.board.length) ∧ s.assignments.Nodup := by
  obtain ⟨hil, hsn, hasg, hblen, -, -, -⟩ := h
  constructor
  · intro i hi
    rw [hasg] at hi
    have := ((mem_zeroIdxs input i).mp hi).1
    omega
  · rw [hasg]
    exact zeroIdxs_nodup input

/-- `step` preserves the central invariant for any start score. -/
theorem inv_step (input : List Nat) (n : Nat) (s : State) (sc : Nat)
    (h : Inv input n s) : Inv input n ((s.step sc).1) := by
  obtain ⟨hbound, hnd⟩ := inv_bound input n s h
  by_cases himp : sc < (s.step sc).2
  · obtain ⟨p, hp, hfind, hb, hs2⟩ := (step_spec s sc).2.2.2 himp
    have hmem := pairList_mem s.assignments p hp
    obtain ⟨hil, hsn, hasg, hblen, hperm, hfix, hmut⟩ := h
    rw [hb]
    refine ⟨hil, hsn, hasg, ?_, ?_, ?_, ?_⟩
    · show (listSwap s.board p.1 p.2).length = n * n
      rw [listSwap_length]
      exact hblen
    · exact (listSwap_perm _ _ _ (hbound _ hmem.1) (hbound _ hmem.2)).trans hperm
    · intro i hi h0
      have hnm : i ∉ s.assignments := by
        rw [hasg, mem_zeroIdxs]
        intro hcontra
        exact h0 hcontra.2
      have hi1 : i ≠ p.1 := fun he => hnm (he ▸ hmem.1)
      have hi2 : i ≠ p.2 := fun he => hnm (he ▸ hmem.2)
      show (listSwap s.board p.1 p.2).getD i 0 = input.getD i 0
      rw [List.getD_eq_getElem?_getD, listSwap_getElem?_other _ _ _ _ hi1 hi2,
        ← List.getD_eq_getElem?_getD]
      exact hfix i hi h0
    · exact (map_getD_listSwap_perm s.board s.assignments hnd p.1 p.2 hmem.1 hmem.2
        (hbound _ hmem.1) (hbound _ hmem.2)).trans hmut
  · have h1 := (step_spec s sc).1
    have heq : (s.step sc).2 = sc := by omega
    rw [(step_spec s sc).2.2.1 heq]
    exact h

/-! ### The hill-climb controller -/

theorem randomStart_snd (s : State) (f : Nat → Nat) :
    (s.random_start f).2 = ((s.random_start f).1).score := rfl

theorem stepLoop_score (fuel : Nat) :
    ∀ (s : State) (high : Nat) (r : State × Nat),
      stepLoop fuel s high = some r → high = s.score → r.2 = r.1.score := by
  induction fuel with
  | zero => intro s high r h _; cases h
  | succ fuel ih =>
    intro s high r h hs
    rw [stepLoop] at h
    by_cases hlt : high < (s.step high).2
    · rw [if_pos hlt] at h
      exact ih _ _ _ h (step_score_eq s high hlt)
    · rw [if_neg hlt] at h
      have h1 := (step_spec s high).1
      have heq : (s.step high).2 = high := by omega
      rw [(step_spec s high).2.2.1 heq] at h
      injection h with h
      rw [← h]
      exact hs

/-- Partial correctness of the controller: whenever the loop returns, the
final state's score is the maximum score. -/
theorem hillclimbGo_some (fuel : Nat) :
    ∀ (s : State) (high : Nat) (g : Nat → Nat) (c : Nat) (s2 : State),
      hillclimbGo fuel s high g c = some s2 → high = s.score →
      s2.score = s2.max_score := by
  induction fuel with
  | zero => intro s high g c s2 h _; cases h
  | succ fuel ih =>
    intro s high g c s2 h hs
    rw [hillclimbGo] at h
    by_cases hmax : high = s.max_score
    · rw [if_pos hmax] at h
      injection h with h
      rw [← h, ← hs]
      exact hmax
    · rw [if_neg hmax] at h
      cases hsl : stepLoop (fuel + 1) (s.random_start (fun i => g (c + i))).1
          (s.random_start (fun i => g (c + i))).2 with
      | none => rw [hsl] at h; cases h
      | some r =>
        obtain ⟨s3, h3⟩ := r
        rw [hsl] at h
        exact ih s3 h3 g _ s2 h (stepLoop_score (fuel + 1) _ _ _ hsl rfl)

theorem hillclimb_some (fuel : Nat) (s : State) (g : Nat → Nat) (s2 : State)
    (h : State.hillclimb fuel s g = some s2) : s2.score = s2.max_score :=
  hillclimbGo_some fuel s s.score g 0 s2 h rfl

/-! ### The adversarial draw stream -/

theorem applySwapsAux_zeros :
    ∀ (js b asg : List Nat) (k : Nat), (∀ i < js.length, js.getD i 0 = 0) →
      applySwapsAux b asg js k = b := by
  intro js
  induction js with
  | nil => intro b asg k _; rfl
  | cons j rest ih =>
    intro b asg k hz
    have h0 : j = 0 := hz 0 (by simp)
    rw [applySwapsAux, h0, Nat.zero_add, listSwap_self, ih]
    intro i hi
    exact hz (i + 1) (by simpa using Nat.succ_lt_succ hi)

/-- All-zero draws make `random_start` the identity on the state. -/
theorem randomStart_zero_draws (s : State) (f : Nat → Nat)
    (hf : ∀ i < s.assignments.length - 1, f i = 0) :
    (s.random_start f).1 = s := by
  have hboard : applySwapsAux s.board s.assignments
      (swapsOf s.assignments.length f) 0 = s.board := by
    apply applySwapsAux_zeros
    intro i hi
    rw [swapsOf_length] at hi
    rw [swapsOf_getD _ _ _ hi, hf i hi, Nat.zero_mod]
  show { s with board := (applySwapsAux s.board s.assignments (swapsOf s.assignments.length f) 0) } = s
  rw [hboard]

set_option maxHeartbeats 3200000 in
theorem kw3stuck_step_eq : kw3stuck.step 7 = (kw3stuck, 7) := by decide

theorem stepLoop_stuck (fuel : Nat) :
    stepLoop (fuel + 1) kw3stuck 7 = some (kw3stuck, 7) := by
  rw [stepLoop]
  rw [kw3stuck_step_eq]
  rfl

theorem hillclimbGo_stuck :
    ∀ (fuel c : Nat), 5 ≤ c → hillclimbGo fuel kw3stuck 7 advDraws c = none := by
  intro fuel
  induction fuel with
  | zero => intro c _; rfl
  | succ fuel ih =>
    intro c hc
    rw [hillclimbGo]
    rw [if_neg (by decide)]
    have hrs : (kw3stuck.random_start (fun i => advDraws (c + i))).1 = kw3stuck := by
      apply randomStart_zero_draws
      intro i hi
      show advDraws (c + i) = 0
      unfold advDraws
      rw [if_neg (by omega)]
    have hsc : (kw3stuck.random_start (fun i => advDraws (c + i))).2 = 7 := by
      rw [randomStart_snd, hrs]
      decide
    rw [hrs, hsc, stepLoop_stuck fuel]
    exact ih (c + (kw3stuck.assignments.length - 1)) (by omega)

set_option maxHeartbeats 1600000 in
theorem kw3_bad_restart_state :
    (kw3.random_start (fun i => advDraws (0 + i))).1 = kw3stuck := by decide

set_option maxHeartbeats 1600000 in
theorem kw3_bad_restart_score :
    (kw3.random_start (fun i => advDraws (0 + i))).2 = 7 := by decide

/-- `hillclimb` on the running example never terminates under the
adversarial draw stream, for any amount of fuel. -/
theorem hillclimb_advDraws_none : ∀ fuel, State.hillclimb fuel kw3 advDraws = none := by
  intro fuel
  cases fuel with
  | zero => rfl
  | succ fuel =>
    show hillclimbGo (fuel + 1) kw3 kw3.score advDraws 0 = none
    rw [hillclimbGo]
    rw [if_neg (by decide)]
    rw [kw3_bad_restart_state, kw3_bad_restart_score, stepLoop_stuck fuel]
    exact hillclimbGo_stuck fuel (0 + (kw3.assignments.length - 1)) (by decide)

/-! ### Scoring: from the implementation sum to an incidence count -/

theorem sum_ite_eq_countP (p : Nat → Prop) [DecidablePred p] (l : List Nat) :
    (l.map (fun x => if p x then 1 else 0)).sum = l.countP (fun x => decide (p x)) := by
  induction l with
  | nil => rfl
  | cons x rest ih =>
    rw [List.map_cons, List.sum_cons, List.countP_cons, ih]
    by_cases hx : p x
    · simp only [if_pos hx, decide_eq_true_eq]
      omega
    · simp only [if_neg hx, decide_eq_true_eq]
      omega

theorem list_sum_range_eq (f : Nat → Nat) (n : Nat) :
    ((List.range n).map f).sum = ∑ i ∈ Finset.range n, f i := by
  induction n with
  | zero => rfl
  | succ n ih =>
    rw [List.range_succ, List.map_append, List.sum_append, Finset.sum_range_succ, ih]
    simp

theorem filterMap_getElem? (b l : List Nat) :
    l.filterMap (fun nb => b[nb]?) =
      (l.filter (fun nb => decide (nb < b.length))).map (fun nb => b.getD nb 0) := by
  induction l with
  | nil => rfl
  | cons q rest ih =>
    by_cases hq : q < b.length
    · have h1 : b[q]? = some (b.getD q 0) := by
        rw [List.getElem?_eq_getElem hq, List.getD_eq_getElem _ _ hq]
      simp only [List.filterMap_cons, h1, List.filter_cons, decide_eq_true_eq, if_pos hq,
        List.map_cons]
      rw [ih]
    · have h1 : b[q]? = none := List.getElem?_eq_none (by omega)
      simp only [List.filterMap_cons, h1, List.filter_cons, decide_eq_true_eq, if_neg hq]
      rw [ih]

theorem helper_cond (goal x : Nat) (hg1 : 1 ≤ goal) (hg2 : goal ≤ 255)
    (hx1 : 1 ≤ x) (hx2 : x ≤ 255) :
    (x = (goal + 1) % 256 ∨ x = (goal + 255) % 256) ↔
      (x = goal + 1 ∨ goal = x + 1) := by
  omega

theorem helper_eq_countP (goal : Nat) (nbrs : List Nat) (hg1 : 1 ≤ goal)
    (hg2 : goal ≤ 255) (hb : ∀ x ∈ nbrs, 1 ≤ x ∧ x ≤ 255) :
    helper goal nbrs = nbrs.countP (fun x => decide (x = goal + 1 ∨ goal = x + 1)) := by
  show (nbrs.map (fun x =>
    if x = (goal + 1) % 256 ∨ x = (goal + 255) % 256 then 1 else 0)).sum = _
  rw [sum_ite_eq_countP (fun x => x = (goal + 1) % 256 ∨ x = (goal + 255) % 256) nbrs]
  apply List.countP_congr
  intro x hx
  simp only [decide_eq_true_eq]
  exact helper_cond goal x hg1 hg2 (hb x hx).1 (hb x hx).2

theorem scoreBoard_eq_sum (b : List Nat) (n : Nat)
    (hvals : ∀ v ∈ b, 1 ≤ v ∧ v ≤ 255) :
    scoreBoard b n = ∑ idx ∈ Finset.range b.length,
      ((neighborIdxs n idx).filter (fun q => decide (q < b.length))).countP
        (fun q => decide (b.getD q 0 = b.getD idx 0 + 1 ∨
          b.getD idx 0 = b.getD q 0 + 1)) := by
  unfold scoreBoard
  have henum : b.enum = (List.range b.length).map (fun i => (i, b.getD i 0)) := by
    apply List.ext_getElem
    · simp
    · intro i h1 h2
      rw [List.getElem_enum, List.getElem_map, List.getElem_range]
      have hi : i < b.length := by simpa using h1
      rw [List.getD_eq_getElem _ _ hi]
  rw [henum, List.map_map, list_sum_range_eq]
  apply Finset.sum_congr rfl
  intro idx hidx
  rw [Finset.mem_range] at hidx
  show helper (b.getD idx 0) ((neighborIdxs n idx).filterMap (fun nb => b[nb]?)) = _
  rw [filterMap_getElem?]
  have hgoal : 1 ≤ b.getD idx 0 ∧ b.getD idx 0 ≤ 255 := by
    apply hvals
    rw [List.getD_eq_getElem _ _ hidx]
    exact b.getElem_mem hidx
  rw [helper_eq_countP _ _ hgoal.1 hgoal.2 ?_]
  · rw [List.countP_map]
    apply List.countP_congr
    intro q hq
    constructor
    · intro h; exact h
    · intro h; exact h
  · intro x hx
    obtain ⟨q, hq, hxe⟩ := List.mem_map.mp hx
    have hql : q < b.length := by
      have := (List.mem_filter.mp hq).2
      simpa using this
    apply hvals
    rw [← hxe, List.getD_eq_getElem _ _ hql]
    exact b.getElem_mem hql

/-! ### Grid arithmetic: forward neighbours are exactly the later adjacent
cells -/

theorem rowcol_div (n r c : Nat) (hn : 0 < n) (hc : c < n) : (r * n + c) / n = r := by
  rw [Nat.add_comm, Nat.mul_comm, Nat.add_mul_div_left _ _ hn, Nat.div_eq_of_lt hc,
    Nat.zero_add]

theorem rowcol_mod (n r c : Nat) (hc : c < n) : (r * n + c) % n = c := by
  rw [Nat.add_comm, Nat.mul_comm, Nat.add_mul_mod_self_left, Nat.mod_eq_of_lt hc]

theorem kingAdj_symm (n p q : Nat) (h : kingAdj n p q) : kingAdj n q p := by
  obtain ⟨h1, h2, h3, h4, h5⟩ := h
  exact ⟨fun he => h1 he.symm, h3, h2, h5, h4⟩

theorem neighborIdxs_nodup (n idx : Nat) (hn : 0 < n) :
    (neighborIdxs n idx).Nodup := by
  have hc : idx % n < n := Nat.mod_lt idx hn
  by_cases h1 : idx % n ≠ 0 <;> by_cases h2 : idx % n ≠ n - 1
  · have h3 : 3 ≤ n := by omega
    simp only [neighborIdxs, if_pos h1, if_pos h2]
    simp
    omega
  · simp only [neighborIdxs, if_pos h1, if_neg h2]
    simp
    omega
  · simp only [neighborIdxs, if_neg h1, if_pos h2]
    simp
    omega
  · simp only [neighborIdxs, if_neg h1, if_neg h2]
    simp

theorem mem_neighborIdxs_iff (n i q : Nat) (hn : 0 < n) :
    q ∈ neighborIdxs n i ↔ (i < q ∧ kingAdj n i q) := by
  obtain ⟨r, c, hc, hieq⟩ : ∃ r c, c < n ∧ i = r * n + c :=
    ⟨i / n, i % n, Nat.mod_lt i hn, by rw [Nat.mul_comm]; exact (Nat.div_add_mod i n).symm⟩
  have hdivi : i / n = r := by rw [hieq, rowcol_div n r c hn hc]
  have hmodi : i % n = c := by rw [hieq, rowcol_mod n r c hc]
  have hrn : (r + 1) * n = r * n + n := by ring
  constructor
  · intro hmem
    simp only [neighborIdxs, hmodi, List.mem_append, List.mem_singleton, List.mem_cons,
      List.not_mem_nil, or_false] at hmem
    have hkey : q = i + n ∨ (q = i + n - 1 ∧ c ≠ 0) ∨
        ((q = i + 1 ∨ q = i + n + 1) ∧ c ≠ n - 1) := by
      by_cases hz : c ≠ 0 <;> by_cases he : c ≠ n - 1
      · simp only [if_pos hz, if_pos he, List.mem_cons, List.mem_singleton,
          List.not_mem_nil, or_false] at hmem
        tauto
      · simp only [if_pos hz, if_neg he, List.mem_cons, List.mem_singleton,
          List.not_mem_nil, or_false] at hmem
        tauto
      · simp only [if_neg hz, if_pos he, List.mem_cons, List.mem_singleton,
          List.not_mem_nil, or_false] at hmem
        tauto
      · simp only [if_neg hz, if_neg he, List.mem_cons, List.mem_singleton,
          List.not_mem_nil, or_false] at hmem
        tauto
    rcases hkey with hk | ⟨hk, hcn⟩ | ⟨hk | hk, hcn⟩
    · have e1 : q = (r + 1) * n + c := by rw [hrn]; omega
      have hdq : q / n = r + 1 := by rw [e1]; exact rowcol_div n (r + 1) c hn hc
      have hmq : q % n = c := by rw [e1]; exact rowcol_mod n (r + 1) c hc
      refine ⟨by omega, ?_⟩
      unfold kingAdj
      rw [hdivi, hmodi, hdq, hmq]
      omega
    · have hc1 : c - 1 < n := by omega
      have e1 : q = (r + 1) * n + (c - 1) := by rw [hrn]; omega
      have hdq : q / n = r + 1 := by rw [e1]; exact rowcol_div n (r + 1) (c - 1) hn hc1
      have hmq : q % n = c - 1 := by rw [e1]; exact rowcol_mod n (r + 1) (c - 1) hc1
      refine ⟨by omega, ?_⟩
      unfold kingAdj
      rw [hdivi, hmodi, hdq, hmq]
      omega
    · have hc1 : c + 1 < n := by omega
      have e1 : q = r * n + (c + 1) := by omega
      have hdq : q / n = r := by rw [e1]; exact rowcol_div n r (c + 1) hn hc1
      have hmq : q % n = c + 1 := by rw [e1]; exact rowcol_mod n r (c + 1) hc1
      refine ⟨by omega, ?_⟩
      unfold kingAdj
      rw [hdivi, hmodi, hdq, hmq]
      omega
    · have hc1 : c + 1 < n := by omega
      have e1 : q = (r + 1) * n + (c + 1) := by rw [hrn]; omega
      have hdq : q / n = r + 1 := by rw [e1]; exact rowcol_div n (r + 1) (c + 1) hn hc1
      have hmq : q % n = c + 1 := by rw [e1]; exact rowcol_mod n (r + 1) (c + 1) hc1
      refine ⟨by omega, ?_⟩
      unfold kingAdj
      rw [hdivi, hmodi, hdq, hmq]
      omega
  · rintro ⟨hlt, hadj⟩
    obtain ⟨r2, c2, hc2, hqeq⟩ : ∃ r2 c2, c2 < n ∧ q = r2 * n + c2 :=
      ⟨q / n, q % n, Nat.mod_lt q hn, by rw [Nat.mul_comm]; exact (Nat.div_add_mod q n).symm⟩
    have hdivq : q / n = r2 := by rw [hqeq, rowcol_div n r2 c2 hn hc2]
    have hmodq : q % n = c2 := by rw [hqeq, rowcol_mod n r2 c2 hc2]
    unfold kingAdj at hadj
    rw [hdivi, hmodi, hdivq, hmodq] at hadj
    obtain ⟨hne, ha1, ha2, ha3, ha4⟩ := hadj
    have hge : r ≤ r2 := by
      by_contra hlt2
      push_neg at hlt2
      have h1 : r2 + 1 ≤ r := hlt2
      have h2 : (r2 + 1) * n ≤ r * n := Nat.mul_le_mul_right n h1
      have h3 : r2 * n + n ≤ r * n := by
        have e : (r2 + 1) * n = r2 * n + n := by ring
        rw [e] at h2
        exact h2
      omega
    have hcase : r2 = r ∨ r2 = r + 1 := by omega
    simp only [neighborIdxs, hmodi, List.mem_append, List.mem_singleton, List.mem_cons,
      List.not_mem_nil, or_false]
    rcases hcase with rfl | rfl
    · by_cases hz : c ≠ 0 <;> by_cases he : c ≠ n - 1
      · simp only [if_pos hz, if_pos he]
        simp
        omega
      · simp only [if_pos hz, if_neg he]
        simp
        omega
      · simp only [if_neg hz, if_pos he]
        simp
        omega
      · simp only [if_neg hz, if_neg he]
        simp
        omega
    · rw [hrn] at hqeq
      by_cases hz : c ≠ 0 <;> by_cases he : c ≠ n - 1
      · simp only [if_pos hz, if_pos he]
        simp
        omega
      · simp only [if_pos hz, if_neg he]
        simp
        omega
      · simp only [if_neg hz, if_pos he]
        simp
        omega
      · simp only [if_neg hz, if_neg he]
        simp
        omega

/-! ### Counting incidences -/

theorem countP_nbrs_eq_card (b : List Nat) (n idx : Nat) (hn : 0 < n) :
    ((neighborIdxs n idx).filter (fun q => decide (q < n * n))).countP
      (fun q => decide (b.getD q 0 = b.getD idx 0 + 1 ∨
        b.getD idx 0 = b.getD q 0 + 1)) =
    ((Finset.range (n * n)).filter (fun q => q ∈ neighborIdxs n idx ∧
      (b.getD q 0 = b.getD idx 0 + 1 ∨ b.getD idx 0 = b.getD q 0 + 1))).card := by
  rw [List.countP_eq_length_filter, List.filter_filter]
  have hnd2 : ((neighborIdxs n idx).filter
      (fun q => decide (b.getD q 0 = b.getD idx 0 + 1 ∨
        b.getD idx 0 = b.getD q 0 + 1) && decide (q < n * n))).Nodup :=
    (neighborIdxs_nodup n idx hn).filter _
  rw [← List.dedup_eq_self.mpr hnd2, ← List.card_toFinset]
  congr 1
  apply Finset.ext
  intro a
  simp only [List.mem_toFinset, List.mem_filter, Finset.mem_filter, Finset.mem_range,
    Bool.and_eq_true, decide_eq_true_eq]
  constructor
  · rintro ⟨h1, h2, h3⟩
    exact ⟨by omega, h1, h2⟩
  · rintro ⟨h1, h2, h3⟩
    exact ⟨h2, h3, by omega⟩

theorem sum_card_eq_card_inPairs (b : List Nat) (n : Nat) :
    (∑ idx ∈ Finset.range (n * n),
      ((Finset.range (n * n)).filter (fun q => q ∈ neighborIdxs n idx ∧
        (b.getD q 0 = b.getD idx 0 + 1 ∨ b.getD idx 0 = b.getD q 0 + 1))).card) =
    (inPairs b n).card := by
  have hmaps : ∀ p ∈ inPairs b n, p.1 ∈ Finset.range (n * n) := by
    intro p hp
    rw [inPairs, Finset.mem_filter, Finset.mem_product] at hp
    exact hp.1.1
  rw [Finset.card_eq_sum_card_fiberwise hmaps]
  apply Finset.sum_congr rfl
  intro idx hidx
  rw [Finset.mem_range] at hidx
  apply Finset.card_bij (fun q _ => (idx, q))
  · intro q hq
    rw [Finset.mem_filter, Finset.mem_range] at hq
    rw [Finset.mem_filter]
    constructor
    · rw [inPairs, Finset.mem_filter, Finset.mem_product]
      exact ⟨⟨Finset.mem_range.mpr hidx, Finset.mem_range.mpr hq.1⟩, hq.2⟩
    · rfl
  · intro q1 h1 q2 h2 he
    exact (Prod.mk.injEq idx q1 idx q2).mp he |>.2
  · intro p hp
    rw [Finset.mem_filter] at hp
    obtain ⟨hp1, hp2⟩ := hp
    rw [inPairs, Finset.mem_filter, Finset.mem_product] at hp1
    refine ⟨p.2, ?_, ?_⟩
    · rw [Finset.mem_filter, Finset.mem_range]
      refine ⟨by simpa using hp1.1.2, ?_⟩
      rw [← hp2]
      exact hp1.2
    · rw [← hp2]

/-- The incidence pairs are in bijection with the adjacent
consecutive-value pairs, via the smaller value. -/
theorem card_inPairs_eq (b : List Nat) (n : Nat)
    (hperm : b.Perm (List.range' 1 (n * n))) (hn : 0 < n) :
    (inPairs b n).card = (adjPairSet b n).card := by
  have hlen : b.length = n * n := by
    have := hperm.length_eq
    simpa using this
  have hnd : b.Nodup := (hperm.nodup_iff).mpr (List.nodup_range' 1 (n * n))
  have hmemb : ∀ v, v ∈ b ↔ 1 ≤ v ∧ v ≤ n * n := by
    intro v
    rw [hperm.mem_iff, List.mem_range'_1]
    omega
  have hat : ∀ v ∈ b, b.getD (b.indexOf v) 0 = v ∧ b.indexOf v < b.length := by
    intro v hv
    have hlt : b.indexOf v < b.length := List.indexOf_lt_length.mpr hv
    exact ⟨by rw [List.getD_eq_getElem _ _ hlt]; exact List.getElem_indexOf hlt, hlt⟩
  have hidxOf : ∀ i, i < b.length → b.indexOf (b.getD i 0) = i := by
    intro i hi
    rw [List.getD_eq_getElem _ _ hi]
    exact List.indexOf_getElem hnd i hi
  have hdecomp : ∀ p ∈ inPairs b n, p.1 < p.2 ∧ kingAdj n p.1 p.2 ∧
      ((b.getD p.1 0 = min (b.getD p.1 0) (b.getD p.2 0) ∧
        b.getD p.2 0 = min (b.getD p.1 0) (b.getD p.2 0) + 1) ∨
       (b.getD p.2 0 = min (b.getD p.1 0) (b.getD p.2 0) ∧
        b.getD p.1 0 = min (b.getD p.1 0) (b.getD p.2 0) + 1)) := by
    intro p hp
    rw [inPairs, Finset.mem_filter, Finset.mem_product] at hp
    obtain ⟨⟨hr1, hr2⟩, hnbr, hcons⟩ := hp
    obtain ⟨hlt, hadj⟩ := (mem_neighborIdxs_iff n p.1 p.2 hn).mp hnbr
    refine ⟨hlt, hadj, ?_⟩
    rcases hcons with hA | hB
    · left
      omega
    · right
      omega
  have hp1lt : ∀ p ∈ inPairs b n, p.1 < b.length ∧ p.2 < b.length := by
    intro p hp
    rw [inPairs, Finset.mem_filter, Finset.mem_product] at hp
    obtain ⟨⟨hr1, hr2⟩, -, -⟩ := hp
    rw [Finset.mem_range] at hr1 hr2
    omega
  have hchar : ∀ p ∈ inPairs b n, ∀ k, min (b.getD p.1 0) (b.getD p.2 0) = k →
      (p.1 = b.indexOf k ∧ p.2 = b.indexOf (k + 1)) ∨
      (p.1 = b.indexOf (k + 1) ∧ p.2 = b.indexOf k) := by
    intro p hp k hk
    obtain ⟨hlt, hadj, hmm⟩ := hdecomp p hp
    obtain ⟨hl1, hl2⟩ := hp1lt p hp
    rcases hmm with ⟨hv1, hv2⟩ | ⟨hv2, hv1⟩
    · left
      rw [hk] at hv1 hv2
      exact ⟨by rw [← hv1, hidxOf p.1 hl1], by rw [← hv2, hidxOf p.2 hl2]⟩
    · right
      rw [hk] at hv1 hv2
      exact ⟨by rw [← hv1, hidxOf p.1 hl1], by rw [← hv2, hidxOf p.2 hl2]⟩
  apply Finset.card_bij (fun p _ => min (b.getD p.1 0) (b.getD p.2 0))
  · intro p hp
    obtain ⟨hlt, hadj, hmm⟩ := hdecomp p hp
    obtain ⟨hl1, hl2⟩ := hp1lt p hp
    have hv1m : b.getD p.1 0 ∈ b := by
      rw [List.getD_eq_getElem _ _ hl1]
      exact b.getElem_mem hl1
    have hv2m : b.getD p.2 0 ∈ b := by
      rw [List.getD_eq_getElem _ _ hl2]
      exact b.getElem_mem hl2
    have hb1 := (hmemb _).mp hv1m
    have hb2 := (hmemb _).mp hv2m
    rw [adjPairSet, Finset.mem_filter, Finset.mem_Icc]
    rcases hchar p hp _ rfl with ⟨he1, he2⟩ | ⟨he1, he2⟩
    · refine ⟨⟨by omega, by omega⟩, ?_⟩
      rw [← he1, ← he2]
      exact hadj
    · refine ⟨⟨by omega, by omega⟩, ?_⟩
      rw [← he1, ← he2]
      exact kingAdj_symm n p.1 p.2 hadj
  · intro p1 hp1 p2 hp2 he
    rcases hchar p1 hp1 (min (b.getD p1.1 0) (b.getD p1.2 0)) rfl with ⟨ha1, ha2⟩ | ⟨ha1, ha2⟩ <;>
      rcases hchar p2 hp2 (min (b.getD p1.1 0) (b.getD p1.2 0)) he.symm with
        ⟨hb1, hb2⟩ | ⟨hb1, hb2⟩
    · apply Prod.ext
      · rw [ha1, hb1]
      · rw [ha2, hb2]
    · have h1 := (hdecomp p1 hp1).1
      have h2 := (hdecomp p2 hp2).1
      omega
    · have h1 := (hdecomp p1 hp1).1
      have h2 := (hdecomp p2 hp2).1
      omega
    · apply Prod.ext
      · rw [ha1, hb1]
      · rw [ha2, hb2]
  · intro k hk
    rw [adjPairSet, Finset.mem_filter, Finset.mem_Icc] at hk
    obtain ⟨⟨hk1, hk2⟩, hadj⟩ := hk
    have hnn : 1 ≤ n * n := Nat.one_le_iff_ne_zero.mpr (by positivity)
    have hkb : k ∈ b := (hmemb k).mpr ⟨hk1, by omega⟩
    have hk1b : k + 1 ∈ b := (hmemb (k + 1)).mpr ⟨by omega, by omega⟩
    obtain ⟨hg1, hl1⟩ := hat k hkb
    obtain ⟨hg2, hl2⟩ := hat (k + 1) hk1b
    have hne : b.indexOf k ≠ b.indexOf (k + 1) := by
      intro he
      rw [he, hg2] at hg1
      omega
    by_cases hlt : b.indexOf k < b.indexOf (k + 1)
    · refine ⟨(b.indexOf k, b.indexOf (k + 1)), ?_, ?_⟩
      · rw [inPairs, Finset.mem_filter, Finset.mem_product]
        refine ⟨⟨Finset.mem_range.mpr (by omega), Finset.mem_range.mpr (by omega)⟩, ?_, ?_⟩
        · exact (mem_neighborIdxs_iff n _ _ hn).mpr ⟨hlt, hadj⟩
        · left
          rw [hg1, hg2]
      · show min (b.getD (b.indexOf k) 0) (b.getD (b.indexOf (k + 1)) 0) = k
        rw [hg1, hg2]
        omega
    · have hlt2 : b.indexOf (k + 1) < b.indexOf k := by omega
      refine ⟨(b.indexOf (k + 1), b.indexOf k), ?_, ?_⟩
      · rw [inPairs, Finset.mem_filter, Finset.mem_product]
        refine ⟨⟨Finset.mem_range.mpr (by omega), Finset.mem_range.mpr (by omega)⟩, ?_, ?_⟩
        · exact (mem_neighborIdxs_iff n _ _ hn).mpr ⟨hlt2, kingAdj_symm n _ _ hadj⟩
        · right
          rw [hg1, hg2]
      · show min (b.getD (b.indexOf (k + 1)) 0) (b.getD (b.indexOf k) 0) = k
        rw [hg1, hg2]
        omega

theorem countP_range'_eq_card (m : Nat) (p : Nat → Prop) [DecidablePred p] :
    (List.range' 1 m).countP (fun k => decide (p k)) = ((Finset.Icc 1 m).filter p).card := by
  rw [List.countP_eq_length_filter]
  have hnd : ((List.range' 1 m).filter (fun k => decide (p k))).Nodup :=
    (List.nodup_range' 1 m).filter _
  rw [← List.dedup_eq_self.mpr hnd, ← List.card_toFinset]
  congr 1
  apply Finset.ext
  intro a
  simp only [List.mem_toFinset, List.mem_filter, List.mem_range'_1, Finset.mem_filter,
    Finset.mem_Icc, decide_eq_true_eq]
  constructor
  · rintro ⟨⟨h1, h2⟩, h3⟩
    exact ⟨⟨h1, by omega⟩, h3⟩
  · rintro ⟨⟨h1, h2⟩, h3⟩
    exact ⟨⟨h1, by omega⟩, h3⟩

theorem adjPairCount_eq_card (b : List Nat) (n : Nat) :
    adjPairCount b n = (adjPairSet b n).card := by
  unfold adjPairCount adjPairSet
  exact countP_range'_eq_card (n * n - 1) _

/-- The main scoring theorem: on a permutation board with values below
256, the implementation's score equals the number of adjacent
consecutive-value pairs, counted once each. -/
theorem scoreBoard_eq_adjPairCount (b : List Nat) (n : Nat)
    (hperm : b.Perm (List.range' 1 (n * n))) (h255 : n * n ≤ 255) :
    scoreBoard b n = adjPairCount b n := by
  by_cases hn : 0 < n
  · have hlen : b.length = n * n := by
      have := hperm.length_eq
      simpa using this
    have hvals : ∀ v ∈ b, 1 ≤ v ∧ v ≤ 255 := by
      intro v hv
      rw [hperm.mem_iff, List.mem_range'_1] at hv
      omega
    rw [scoreBoard_eq_sum b n hvals, hlen]
    rw [adjPairCount_eq_card, ← card_inPairs_eq b n hperm hn, ← sum_card_eq_card_inPairs]
    apply Finset.sum_congr rfl
    intro idx hidx
    exact countP_nbrs_eq_card b n idx hn
  · have hn0 : n = 0 := by omega
    subst hn0
    have hb : b = [] := List.length_eq_zero.mp (by simpa using hperm.length_eq)
    subst hb
    rfl

/-- The score never exceeds `n*n - 1` on a permutation board. -/
theorem scoreBoard_le (b : List Nat) (n : Nat)
    (hperm : b.Perm (List.range' 1 (n * n))) (h255 : n * n ≤ 255) :
    scoreBoard b n ≤ n * n - 1 := by
  rw [scoreBoard_eq_adjPairCount b n hperm h255, adjPairCount_eq_card]
  calc (adjPairSet b n).card ≤ (Finset.Icc 1 (n * n - 1)).card := Finset.card_filter_le _ _
  _ = n * n - 1 := by rw [Nat.card_Icc]; omega

/-! ### Reachability of `random_start`: which rearrangements the shuffle
can produce -/

theorem applySwapsAux_shift :
    ∀ (js b : List Nat) (a : Nat) (rest : List Nat) (k : Nat),
      applySwapsAux b (a :: rest) js (k + 1) = applySwapsAux b rest js k := by
  intro js
  induction js with
  | nil => intro b a rest k; rfl
  | cons j js ih =>
    intro b a rest k
    rw [applySwapsAux, applySwapsAux]
    rw [List.getD_cons_succ, show j + (k + 1) = (j + k) + 1 by omega, List.getD_cons_succ]
    exact ih _ a rest (k + 1)

theorem eq_of_getD (t b : List Nat) (hlen : t.length = b.length)
    (h : ∀ j, t.getD j 0 = b.getD j 0) : t = b := by
  apply List.ext_getElem hlen
  intro j h1 h2
  have := h j
  rw [List.getD_eq_getElem _ _ h1, List.getD_eq_getElem _ _ h2] at this
  exact this

/-- Any rearrangement of the values at the mutable positions other than
the last one is reachable by the shuffle loop, for suitable draws. -/
theorem applySwaps_reach :
    ∀ (asg b t : List Nat), asg.Nodup → (∀ i ∈ asg, i < b.length) →
      t.length = b.length →
      (∀ j, j ∉ asg.take (asg.length - 1) → t.getD j 0 = b.getD j 0) →
      ((asg.take (asg.length - 1)).map (fun i => t.getD i 0)).Perm
        ((asg.take (asg.length - 1)).map (fun i => b.getD i 0)) →
      ∃ js : List Nat, js.length = asg.length - 1 ∧
        (∀ i, i < js.length → js.getD i 0 < asg.length - 1 - i) ∧
        applySwapsAux b asg js 0 = t := by
  intro asg
  induction asg with
  | nil =>
    intro b t _ _ hlen hout _
    refine ⟨[], rfl, by simp, ?_⟩
    exact (eq_of_getD t b hlen (fun j => hout j (by simp))).symm
  | cons a rest ih =>
    intro b t hnd hbound hlen hout hperm
    cases rest with
    | nil =>
      refine ⟨[], rfl, by simp, ?_⟩
      exact (eq_of_getD t b hlen (fun j => hout j (by simp))).symm
    | cons r0 rest2 =>
      have hpre : (a :: r0 :: rest2).take ((a :: r0 :: rest2).length - 1) =
          a :: ((r0 :: rest2).take ((r0 :: rest2).length - 1)) := by
        show (a :: r0 :: rest2).take ((r0 :: rest2).length - 1 + 1) = _
        rw [List.take_succ_cons]
      rw [hpre] at hout hperm
      have hamem : a ∈ a :: r0 :: rest2 := List.mem_cons_self _ _
      have hwmem : t.getD a 0 ∈ ((a :: ((r0 :: rest2).take ((r0 :: rest2).length - 1))).map
          (fun i => b.getD i 0)) := by
        apply hperm.mem_iff.mp
        exact List.mem_map_of_mem _ (List.mem_cons_self _ _)
      obtain ⟨p, hpmem, hpeq⟩ := List.mem_map.mp hwmem
      have hpasg : p ∈ a :: r0 :: rest2 := by
        rcases List.mem_cons.mp hpmem with h | h
        · rw [h]; exact hamem
        · exact List.mem_cons_of_mem a ((List.take_sublist _ _).subset h)
      obtain ⟨j0, hj0lt, hj0eq⟩ : ∃ j0, j0 < (a :: r0 :: rest2).length - 1 ∧
          (a :: r0 :: rest2).getD j0 0 = p := by
        rcases List.mem_cons.mp hpmem with h | h
        · refine ⟨0, by simp, ?_⟩
          rw [List.getD_cons_zero, h]
        · obtain ⟨j2, hj2, hje⟩ := List.getElem_of_mem h
          have hj2b : j2 < rest2.length := by
            rw [List.length_take, List.length_cons] at hj2
            omega
          refine ⟨j2 + 1, by simp only [List.length_cons]; omega, ?_⟩
          rw [List.getD_cons_succ,
            List.getD_eq_getElem _ _ (by simp only [List.length_cons]; omega)]
          rw [List.getElem_take] at hje
          exact hje
      have hpa : p < b.length := hbound p hpasg
      have haa : a < b.length := hbound a hamem
      have hprend : (a :: ((r0 :: rest2).take ((r0 :: rest2).length - 1))).Nodup := by
        rw [← hpre]
        exact List.Nodup.sublist (List.take_sublist _ _) hnd
      have hswapperm := map_getD_listSwap_perm b
        (a :: ((r0 :: rest2).take ((r0 :: rest2).length - 1))) hprend a p
        (List.mem_cons_self _ _) hpmem haa hpa
      have hswapa : (listSwap b a p).getD a 0 = t.getD a 0 := by
        rw [List.getD_eq_getElem?_getD, listSwap_getElem? b a p a haa hpa]
        by_cases hap : a = p
        · rw [if_pos hap, ← List.getD_eq_getElem?_getD]
          conv_lhs => rw [hap]
          exact hpeq
        · rw [if_neg hap, if_pos rfl, ← List.getD_eq_getElem?_getD]
          exact hpeq
      have hnd2 : (r0 :: rest2).Nodup := (List.nodup_cons.mp hnd).2
      have hbound2 : ∀ i ∈ r0 :: rest2, i < (listSwap b a p).length := by
        intro i hi
        rw [listSwap_length]
        exact hbound i (List.mem_cons_of_mem a hi)
      have hlen2 : t.length = (listSwap b a p).length := by
        rw [listSwap_length]
        exact hlen
      have hout2 : ∀ j, j ∉ (r0 :: rest2).take ((r0 :: rest2).length - 1) →
          t.getD j 0 = (listSwap b a p).getD j 0 := by
        intro j hj
        by_cases hja : j = a
        · rw [hja]
          exact hswapa.symm
        · have hjp : j ≠ p := by
            intro he
            rcases List.mem_cons.mp hpmem with h | h
            · exact hja (he.trans h)
            · exact hj (he ▸ h)
          rw [List.getD_eq_getElem?_getD (listSwap b a p),
            listSwap_getElem?_other b a p j hja hjp, ← List.getD_eq_getElem?_getD]
          exact hout j (by
            rw [List.mem_cons]
            rintro (h | h)
            · exact hja h
            · exact hj h)
      have hperm2 : (((r0 :: rest2).take ((r0 :: rest2).length - 1)).map
            (fun i => t.getD i 0)).Perm
          (((r0 :: rest2).take ((r0 :: rest2).length - 1)).map
            (fun i => (listSwap b a p).getD i 0)) := by
        have h1 := hperm.trans hswapperm.symm
        rw [List.map_cons, List.map_cons, hswapa] at h1
        exact h1.cons_inv
      obtain ⟨js2, hjl, hjb, happ⟩ := ih (listSwap b a p) t hnd2 hbound2 hlen2 hout2 hperm2
      refine ⟨j0 :: js2, ?_, ?_, ?_⟩
      · have hjl2 := hjl
        simp only [List.length_cons] at hjl2 ⊢
        omega
      · intro i hi
        cases i with
        | zero =>
          rw [List.getD_cons_zero]
          simpa using hj0lt
        | succ i =>
          rw [List.getD_cons_succ]
          have hi2 : i < js2.length := by
            simp only [List.length_cons] at hi
            omega
          have := hjb i hi2
          simp only [List.length_cons] at this ⊢
          omega
      · rw [applySwapsAux, Nat.add_zero, hj0eq, List.getD_cons_zero]
        rw [applySwapsAux_shift]
        exact happ

/-- Every rearrangement of the board that permutes only the values at the
first `len - 1` mutable positions is produced by some draw stream. -/
theorem randomStart_reachable (s : State) (t : List Nat)
    (hnd : s.assignments.Nodup)
    (hbound : ∀ i ∈ s.assignments, i < s.board.length)
    (hlen : t.length = s.board.length)
    (hout : ∀ j, j ∉ s.assignments.take (s.assignments.length - 1) →
      t.getD j 0 = s.board.getD j 0)
    (hperm : ((s.assignments.take (s.assignments.length - 1)).map
        (fun i => t.getD i 0)).Perm
      ((s.assignments.take (s.assignments.length - 1)).map
        (fun i => s.board.getD i 0))) :
    ∃ f : Nat → Nat, (s.random_start f).1 = { s with board := t } := by
  obtain ⟨js, hjl, hjb, happ⟩ :=
    applySwaps_reach s.assignments s.board t hnd hbound hlen hout hperm
  refine ⟨fun i => js.getD i 0, ?_⟩
  have hsw : swapsOf s.assignments.length (fun i => js.getD i 0) = js := by
    apply List.ext_getElem
    · rw [swapsOf_length, hjl]
    · intro i h1 h2
      simp only [swapsOf, List.getElem_map, List.getElem_range]
      rw [List.getD_eq_getElem js 0 h2]
      have hb := hjb i h2
      rw [List.getD_eq_getElem js 0 h2] at hb
      exact Nat.mod_eq_of_lt hb
  simp only [State.random_start]
  rw [hsw, happ]

/-! ### Shared concrete facts for the claims -/

theorem validInput_example : ValidInput [0, 0, 1, 0, 2, 0, 9, 0, 0] 3 := by
  unfold ValidInput
  exact ⟨by decide, by decide, by decide⟩

theorem new_kw3 : State.new [0, 0, 1, 0, 2, 0, 9, 0, 0] 3 = some (Except.ok kw3) := by
  rw [new_eq_ok [0, 0, 1, 0, 2, 0, 9, 0, 0] 3 (by decide) (by decide)]
  rw [show setAll [0, 0, 1, 0, 2, 0, 9, 0, 0] (zeroIdxs [0, 0, 1, 0, 2, 0, 9, 0, 0])
      ((missingVals [0, 0, 1, 0, 2, 0, 9, 0, 0] 3).map (· % 256)) = [3, 4, 1, 5, 2, 6, 9, 7, 8]
    from by decide]
  rw [show zeroIdxs [0, 0, 1, 0, 2, 0, 9, 0, 0] = [0, 1, 3, 5, 7, 8] from by decide]
  rfl

theorem new_replicate256 :
    State.new (List.replicate 256 0) 16 = some (Except.ok
      { board := setAll (List.replicate 256 0) (zeroIdxs (List.replicate 256 0))
          ((missingVals (List.replicate 256 0) 16).map (· % 256)),
        n := 16, assignments := zeroIdxs (List.replicate 256 0) }) :=
  new_eq_ok _ 16 (by rw [List.length_replicate])
    (fun v hv => by rw [List.eq_of_mem_replicate hv]; omega)

theorem setAll_replicate256_lt (v : Nat)
    (hv : v ∈ setAll (List.replicate 256 0) (zeroIdxs (List.replicate 256 0))
      ((missingVals (List.replicate 256 0) 16).map (· % 256))) : v < 256 := by
  rcases setAll_mem _ _ _ _ hv with h | h
  · rw [List.eq_of_mem_replicate h]
    omega
  · obtain ⟨x, -, hx⟩ := List.mem_map.mp h
    omega

theorem missingVals_replicate256 :
    missingVals (List.replicate 256 0) 16 = List.range' 1 (16 * 16) := by
  rw [missingVals]
  apply List.filter_eq_self.mpr
  intro a ha
  have h1 := List.mem_range'_1.mp ha
  simp only [decide_eq_true_eq]
  intro hmem
  have := List.eq_of_mem_replicate hmem
  omega

theorem countP_replicate256 :
    (List.replicate 256 (0 : Nat)).countP (fun v => decide (v = 0)) = 256 := by
  have h : ∀ a ∈ List.replicate 256 (0 : Nat), (fun v => decide (v = 0)) a = true := by
    intro a ha
    rw [List.eq_of_mem_replicate ha]
    decide
  rw [List.countP_eq_length.mpr h, List.length_replicate]

theorem mem_fillZeros_replicate256 :
    256 ∈ fillZeros (List.replicate 256 0) (missingVals (List.replicate 256 0) 16) := by
  have hperm := fillZeros_perm (List.replicate 256 0) (missingVals (List.replicate 256 0) 16)
    (by rw [countP_replicate256, missingVals_replicate256, List.length_range'])
  apply hperm.mem_iff.mpr
  rw [List.mem_append]
  right
  rw [missingVals_replicate256]
  exact List.mem_range'_1.mpr (by omega)

/-! ### The specification claims -/

/-- C1: for every valid input with `n ≤ 15` (so that the `u8` cast does
not truncate the assigned values), the constructed state satisfies the
central invariant — the board is a permutation of `1..n*n`, every clue
cell keeps its input value, and the mutable cells hold exactly the values
missing from the input — and the invariant is preserved by every
`random_start` and every `step`.  (Corrected from the original claim,
which asserted this for every valid input: for `n ≥ 16` the permutation
property already fails at construction, see the counterexample.) -/
theorem C1_invariant_preserved :
    (∀ input n s, ValidInput input n → n ≤ 15 →
      State.new input n = some (Except.ok s) → Inv input n s) ∧
    (∀ input n s f, Inv input n s → Inv input n ((s.random_start f).1)) ∧
    (∀ input n s sc, Inv input n s → Inv input n ((s.step sc).1)) :=
  ⟨fun input n s hv hn hs => new_ok_inv input n s hv hn hs,
   fun input n s f h => inv_random_start input n s f h,
   fun input n s sc h => inv_step input n s sc h⟩

/-- C1 witness: the invariant holds for the constructed `n = 3` example. -/
theorem C1_invariant_preserved_witness :
    ValidInput [0, 0, 1, 0, 2, 0, 9, 0, 0] 3 ∧ Inv [0, 0, 1, 0, 2, 0, 9, 0, 0] 3 kw3 :=
  ⟨validInput_example,
   C1_invariant_preserved.1 [0, 0, 1, 0, 2, 0, 9, 0, 0] 3 kw3 validInput_example
     (by decide) new_kw3⟩

set_option maxRecDepth 4096 in
/-- C1 counterexample: at `n = 16` the all-zero input is accepted by
construction, but the resulting board is not a permutation of `1..256` —
the truncating `u8` cast has dropped the value 256. -/
theorem C1_counterexample :
    ∃ s, State.new (List.replicate 256 0) 16 = some (Except.ok s) ∧
      ¬ s.board.Perm (List.range' 1 (16 * 16)) := by
  refine ⟨_, new_replicate256, ?_⟩
  intro hperm
  have h256 : (256 : Nat) ∈ List.range' 1 (16 * 16) := List.mem_range'_1.mpr (by omega)
  have hmem := hperm.mem_iff.mpr h256
  exact absurd (setAll_replicate256_lt 256 hmem) (by omega)

/-- C2: on a permutation board with `n*n ≤ 255`, `State::score` equals
the number of consecutive pairs `(k, k+1)` whose two cells are king's-move
adjacent (each pair counted exactly once) and never exceeds `n*n - 1`;
the two `n = 3` scenario boards score 6 and 8 = maxScore respectively. -/
theorem C2_score_adjacent_pairs (s : State)
    (hperm : s.board.Perm (List.range' 1 (s.n * s.n))) (h255 : s.n * s.n ≤ 255) :
    s.score = adjPairCount s.board s.n ∧ s.score ≤ s.n * s.n - 1 ∧
      kw3.score = 6 ∧ scoreBoard [3, 4, 1, 8, 2, 5, 9, 7, 6] 3 = 3 * 3 - 1 :=
  ⟨scoreBoard_eq_adjPairCount s.board s.n hperm h255,
   scoreBoard_le s.board s.n hperm h255, by decide, by decide⟩

/-- C2 witness: the score of the running example counts its adjacent
consecutive pairs. -/
theorem C2_score_adjacent_pairs_witness :
    kw3.board.Perm (List.range' 1 (kw3.n * kw3.n)) ∧
      kw3.score = adjPairCount kw3.board kw3.n :=
  ⟨by decide, (C2_score_adjacent_pairs kw3 (by decide) (by decide)).1⟩

/-- C3: `State::step` returns the maximum of the start score and all
single-swap trial scores over pairs of mutable positions, so never less
than the start score; when that maximum is the start score the state is
returned unchanged, and otherwise the earliest-examined pair attaining the
maximum is the one swap permanently applied, and the returned value is the
new state's score. -/
theorem C3_step_best_improvement (s : State) (sc : Nat) :
    sc ≤ (s.step sc).2 ∧
    (∀ p ∈ pairList s.assignments, trialScore s p ≤ (s.step sc).2) ∧
    ((s.step sc).2 = sc ∨ ∃ p ∈ pairList s.assignments, (s.step sc).2 = trialScore s p) ∧
    ((s.step sc).2 = sc → (s.step sc).1 = s) ∧
    (sc < (s.step sc).2 →
      ∃ p, List.find? (fun q => decide (trialScore s q = (s.step sc).2))
          (pairList s.assignments) = some p ∧
        (s.step sc).1 = { s with board := listSwap s.board p.1 p.2 } ∧
        (s.step sc).2 = ((s.step sc).1).score) := by
  obtain ⟨h1, h2, h3, h4⟩ := step_spec s sc
  refine ⟨h1, h2, ?_, h3, ?_⟩
  · by_cases he : (s.step sc).2 = sc
    · exact Or.inl he
    · obtain ⟨p, hp, -, -, hval⟩ := h4 (by omega)
      exact Or.inr ⟨p, hp, hval⟩
  · intro hlt
    obtain ⟨p, hp, hfind, hb, hval⟩ := h4 hlt
    exact ⟨p, hfind, hb, step_score_eq s sc hlt⟩

/-- C4 (amended): `random_start` fixes every non-mutable board position
and permutes the values at the mutable positions, and every rearrangement
of the board that permutes only the values at the first `len - 1` mutable
positions is produced by some draw stream.  (Corrected from the original
claim: the value at the last mutable position never moves, so not every
permutation of the mutable values is reachable — see the
counterexample.) -/
theorem C4_shuffle_reachability (s : State) (t : List Nat)
    (hnd : s.assignments.Nodup)
    (hbound : ∀ i ∈ s.assignments, i < s.board.length)
    (hlen : t.length = s.board.length)
    (hout : ∀ j, j ∉ s.assignments.take (s.assignments.length - 1) →
      t.getD j 0 = s.board.getD j 0)
    (hperm : ((s.assignments.take (s.assignments.length - 1)).map
        (fun i => t.getD i 0)).Perm
      ((s.assignments.take (s.assignments.length - 1)).map
        (fun i => s.board.getD i 0))) :
    (∃ f : Nat → Nat, (s.random_start f).1 = { s with board := t }) ∧
    (∀ f q, q ∉ s.assignments → ((s.random_start f).1).board[q]? = s.board[q]?) ∧
    (∀ f, (s.assignments.map (fun i => ((s.random_start f).1).board.getD i 0)).Perm
      (s.assignments.map (fun i => s.board.getD i 0))) :=
  ⟨randomStart_reachable s t hnd hbound hlen hout hperm,
   fun f q hq => randomStart_getElem?_of_notMem s f q hq,
   fun f => randomStart_map_getD_perm s f hnd hbound⟩

/-- C4 witness: a concrete rearrangement of the first five mutable values
of the running example is reached by some draw stream. -/
theorem C4_shuffle_reachability_witness :
    ∃ f : Nat → Nat, (kw3.random_start f).1 = { kw3 with board := [7, 3, 1, 6, 2, 4, 9, 5, 8] } :=
  (C4_shuffle_reachability kw3 [7, 3, 1, 6, 2, 4, 9, 5, 8] (by decide) (by decide) (by decide)
    (by
      intro j hj
      rcases Nat.lt_or_ge j 9 with h | h
      · interval_cases j
        · exact absurd (by decide) hj
        · exact absurd (by decide) hj
        · rfl
        · exact absurd (by decide) hj
        · rfl
        · exact absurd (by decide) hj
        · rfl
        · exact absurd (by decide) hj
        · rfl
      · have h9 : kw3.board.length = 9 := rfl
        rw [List.getD_eq_default _ _ (by simp only [List.length_cons, List.length_nil]; omega),
          List.getD_eq_default _ _ (by omega)])
    (by decide)).1

/-- C4 counterexample: the rearrangement of the running example that
swaps the values at the last two mutable positions (a permutation of the
mutable values keeping every clue cell) is reachable by no draw stream:
the value at the last mutable position never moves. -/
theorem C4_counterexample :
    ¬ ∃ f : Nat → Nat, (kw3.random_start f).1 = { kw3 with board := [4, 3, 1, 5, 2, 6, 9, 8, 7] } := by
  rintro ⟨f, hf⟩
  have h := randomStart_last_getElem? kw3 f (by decide) (by decide)
  rw [hf] at h
  exact absurd h (by decide)

/-- C5 (amended): construction fails with `BoardLength` exactly when the
input length differs from `n*n` (before any other processing), but
`BoardLength` is not the only possible failure: an input of the right
length is accepted exactly when all its values are at most `n*n`, and a
larger value makes the construction panic.  (Corrected from the original
claim that every input of length `n*n` succeeds.) -/
theorem C5_construction_failures (input : List Nat) (n : Nat) :
    (State.new input n = some (Except.error KingsWalkError.BoardLength) ↔
      input.length ≠ n * n) ∧
    ((∃ s, State.new input n = some (Except.ok s)) ↔
      (input.length = n * n ∧ ∀ v ∈ input, v ≤ n * n)) :=
  ⟨new_error_iff input n, new_isOk_iff input n⟩

/-- C5 counterexample: an input of the correct length `3*3` holding the
value 255 makes the construction panic (an out-of-bounds write to the
`seen` table) instead of succeeding. -/
theorem C5_counterexample : State.new [255, 0, 0, 0, 0, 0, 0, 0, 0] 3 = none := rfl

/-- C6 (amended): for a valid input with `n ≤ 15`, the constructed board
is exactly the input with its zero cells overwritten, in left-to-right
scan order, by the missing values in increasing order, and it is a
permutation of `1..n*n`; the `n = 3` example input produces exactly the
board `[3,4,1,5,2,6,9,7,8]`.  (Corrected: for `n ≥ 16` the assigned
values are truncated mod 256 and the built board differs from the spec's
deterministic fill — see the counterexample.) -/
theorem C6_deterministic_fill (input : List Nat) (n : Nat) (s : State)
    (hv : ValidInput input n) (hn : n ≤ 15)
    (hs : State.new input n = some (Except.ok s)) :
    s.board = fillZeros input (missingVals input n) ∧
    s.board.Perm (List.range' 1 (n * n)) ∧
    State.new [0, 0, 1, 0, 2, 0, 9, 0, 0] 3 = some (Except.ok kw3) := by
  obtain ⟨hb, -, -, -, -⟩ := new_ok_fields input n s hs
  rw [missingVals_map_mod input n hn] at hb
  rw [setAll_zeroIdxs_eq_fillZeros] at hb
  refine ⟨hb, ?_, new_kw3⟩
  rw [hb]
  exact construct_board_perm input n hv

/-- C6 witness: the fill description holds at the `n = 3` example. -/
theorem C6_deterministic_fill_witness :
    ValidInput [0, 0, 1, 0, 2, 0, 9, 0, 0] 3 ∧
      kw3.board = fillZeros [0, 0, 1, 0, 2, 0, 9, 0, 0] (missingVals [0, 0, 1, 0, 2, 0, 9, 0, 0] 3) :=
  ⟨validInput_example,
   (C6_deterministic_fill [0, 0, 1, 0, 2, 0, 9, 0, 0] 3 kw3 validInput_example
     (by decide) new_kw3).1⟩

set_option maxRecDepth 4096 in
/-- C6 counterexample: at `n = 16` the all-zero input is accepted, but
the built board is not the spec's deterministic fill: the fill would place
the value 256, which the `u8` cast truncates to 0. -/
theorem C6_counterexample :
    ∃ s, State.new (List.replicate 256 0) 16 = some (Except.ok s) ∧
      s.board ≠ fillZeros (List.replicate 256 0) (missingVals (List.replicate 256 0) 16) := by
  refine ⟨_, new_replicate256, ?_⟩
  intro heq
  have h256 := mem_fillZeros_replicate256
  rw [← heq] at h256
  exact absurd (setAll_replicate256_lt 256 h256) (by omega)

set_option maxHeartbeats 12800000 in
/-- C7 (amended): partial correctness holds — whenever `hillclimb`
terminates, the final board's score equals `max_score` — and on the
`n = 3` example the all-zero draw stream terminates at the maximum score;
but termination is not guaranteed for every draw stream (see the
counterexample), so the original "always terminates" is corrected. -/
theorem C7_hillclimb_partial_correctness :
    (∀ fuel s g s2, State.hillclimb fuel s g = some s2 → s2.score = s2.max_score) ∧
    (∃ fuel s2, State.hillclimb fuel kw3 (fun _ => 0) = some s2 ∧ s2.score = s2.max_score) := by
  constructor
  · exact fun fuel s g s2 h => hillclimb_some fuel s g s2 h
  · exact ⟨3, { board := [3, 5, 1, 4, 2, 6, 9, 8, 7], n := 3, assignments := [0, 1, 3, 5, 7, 8] },
      by decide, by decide⟩

/-- C7 counterexample: under an adversarial draw stream the hill-climb on
the solvable `n = 3` example never terminates, whatever the fuel. -/
theorem C7_counterexample :
    ¬ ∃ fuel s2, State.hillclimb fuel kw3 advDraws = some s2 := by
  rintro ⟨fuel, s2, h⟩
  rw [hillclimb_advDraws_none fuel] at h
  cases h

/-- C8: `max_score` equals the board length minus one, which for a
constructed state is `n*n - 1`. -/
theorem C8_max_score (input : List Nat) (n : Nat) (s : State)
    (hs : State.new input n = some (Except.ok s)) :
    s.max_score = s.board.length - 1 ∧ s.max_score = n * n - 1 := by
  obtain ⟨-, -, -, hblen, -⟩ := new_ok_fields input n s hs
  exact ⟨rfl, by rw [State.max_score, hblen]⟩

/-- C8 witness: `max_score` of the `n = 3` example is `8`. -/
theorem C8_max_score_witness :
    kw3.max_score = kw3.board.length - 1 ∧ kw3.max_score = 3 * 3 - 1 :=
  C8_max_score [0, 0, 1, 0, 2, 0, 9, 0, 0] 3 kw3 new_kw3

/-- C9: `random_start` never changes the value stored at the last entry
of the mutable positions — every swap it performs targets list positions
strictly before the last — and with exactly two mutable positions it
returns the state unchanged. -/
theorem C9_last_position_fixed (s : State) (f : Nat → Nat)
    (hnd : s.assignments.Nodup) (hne : s.assignments ≠ []) :
    ((s.random_start f).1).board[s.assignments.getD (s.assignments.length - 1) 0]? =
      s.board[s.assignments.getD (s.assignments.length - 1) 0]? ∧
    (s.assignments.length = 2 → (s.random_start f).1 = s) := by
  refine ⟨randomStart_last_getElem? s f hnd hne, ?_⟩
  intro h2
  have hsw : swapsOf s.assignments.length f = [0] := by
    rw [h2]
    show [f 0 % 1] = [0]
    rw [Nat.mod_one]
  show { s with board := (applySwapsAux s.board s.assignments
      (swapsOf s.assignments.length f) 0) } = s
  rw [hsw]
  show { s with board := (listSwap s.board (s.assignments.getD 0 0)
      (s.assignments.getD 0 0)) } = s
  rw [listSwap_self]

/-- C9 witness: on the `n = 3` example, no draw stream moves the value at
board position 8, the last mutable position. -/
theorem C9_last_position_fixed_witness :
    ((kw3.random_start (fun i => i + 5)).1).board[kw3.assignments.getD
        (kw3.assignments.length - 1) 0]? =
      kw3.board[kw3.assignments.getD (kw3.assignments.length - 1) 0]? :=
  (C9_last_position_fixed kw3 (fun i => i + 5) (by decide) (by decide)).1

/-- C10: board values are `u8` and the fill truncates mod 256, so for
`n ≥ 16` a board constructed from a `u8` input (values at most 255) can
never contain the value 256 and is therefore not a permutation of
`1..n*n`; the permutation invariant can hold only for `n ≤ 15`. -/
theorem C10_u8_truncation (input : List Nat) (n : Nat) (s : State)
    (hn : 16 ≤ n) (hu8 : ∀ v ∈ input, v ≤ 255)
    (hs : State.new input n = some (Except.ok s)) :
    ¬ s.board.Perm (List.range' 1 (n * n)) := by
  intro hperm
  obtain ⟨hb, -, -, -, -⟩ := new_ok_fields input n s hs
  have h256n : 256 ≤ n * n := by
    have := Nat.mul_le_mul hn hn
    omega
  have h256 : (256 : Nat) ∈ List.range' 1 (n * n) := List.mem_range'_1.mpr (by omega)
  have hmem := hperm.mem_iff.mpr h256
  rw [hb] at hmem
  rcases setAll_mem _ _ _ _ hmem with h | h
  · have := hu8 _ h
    omega
  · obtain ⟨x, -, hx⟩ := List.mem_map.mp h
    omega

set_option maxRecDepth 4096 in
/-- C10 witness: the board built from the all-zero `16 × 16` input is not
a permutation of `1..256`. -/
theorem C10_u8_truncation_witness :
    ¬ (setAll (List.replicate 256 0) (zeroIdxs (List.replicate 256 0))
        ((missingVals (List.replicate 256 0) 16).map (· % 256))).Perm
      (List.range' 1 (16 * 16)) :=
  C10_u8_truncation (List.replicate 256 0) 16 _ (by decide)
    (fun v hv => by rw [List.eq_of_mem_replicate hv]; omega)
    new_replicate256

end KingsWalk

